import Mathlib

/-!
# oras-sdk: option parsing and remote target resolution

A shallow embedding of the option layer of `koolay/oras-sdk`
(`option/target.go`, `option/remote.go`, `option/spec.go`,
`option/platform.go`, `credential/cred.go`) together with the Go
standard-library functions it calls (`strings.LastIndex`, `strings.Cut`,
`strings.SplitN`, `strings.Split`, `strings.TrimSpace`, `strconv.Atoi`,
`net.ParseIP`, `net.SplitHostPort`, the builtin `append`, and
`sync.Map.LoadOrStore`).

Go strings are modelled as lists of characters.  Every separator the code
searches for (`@`, `:`, `.`, `[`, `]`) is ASCII, and an ASCII byte never
occurs inside a multi-byte UTF-8 sequence, so searching and slicing by
character agrees with Go's byte-wise searching and slicing on valid text.
Go's `int` is the 64-bit signed integer.  Go `error` values are modelled
by a structured type that records which error was raised and the offending
literal, instead of the formatted message.  `net.ParseIP` follows the
current Go implementation: an IPv4 octet with a leading zero and an IPv6
group of more than four digits are rejected.

A method that changes its receiver is modelled by a function returning the
receiver after the call together with the returned error.  The two slices
that `BinaryTarget.Parse` builds with `append` are modelled with explicit
backing arrays, because `append` writes in place when the capacity allows.
The maps behind the warning handlers are modelled as a heap of tables and
sets, because the two sides of a `BinaryTarget` share one table and every
handler keeps a pointer to the set of its registry.  Concurrent deliveries
are modelled by workers whose steps a schedule interleaves; a call of
`LoadOrStore` is one step, as `sync.Map` makes it atomic, and the log call
that follows it is another.
-/

set_option autoImplicit false

namespace OrasSdk

/-! ## Definitions -/

/-- A Go string. -/
abbrev GoString := List Char

/-- Position of the last occurrence of `c` in `s`, if any. -/
def lastIndex? (c : Char) : GoString → Option Nat
  | [] => none
  | x :: xs =>
    match lastIndex? c xs with
    | some i => some (i + 1)
    | none => if x = c then some 0 else none

/-- Position of the first occurrence of `c` in `s`, if any. -/
def index? (c : Char) : GoString → Option Nat
  | [] => none
  | x :: xs =>
    if x = c then some 0
    else match index? c xs with
      | some i => some (i + 1)
      | none => none

/-- Go `strings.LastIndex(s, sep)` for a one-byte separator: `-1` when absent. -/
def LastIndex (s : GoString) (c : Char) : Int :=
  match lastIndex? c s with
  | some i => (i : Int)
  | none => -1

/-- Go `strings.Index(s, sep)` / `bytealg.IndexByteString`: `-1` when absent. -/
def Index (s : GoString) (c : Char) : Int :=
  match index? c s with
  | some i => (i : Int)
  | none => -1

/-- Go slice expression `s[:i]`. -/
def sliceTo (s : GoString) (i : Int) : GoString := s.take i.toNat

/-- Go slice expression `s[i:]`. -/
def sliceFrom (s : GoString) (i : Int) : GoString := s.drop i.toNat

/-- Errors raised by the option layer. -/
inductive OptionError where
  /-- Error of parseFileRef: found empty file path in the reference. -/
  | emptyFilePath (reference : GoString)
  /-- Error of parseResolve: failed to parse resolve flag, with the message. -/
  | resolveFormat (param : GoString) (message : GoString)
  /-- Error of parseCustomHeaders: invalid header. -/
  | invalidHeader (h : GoString)
  /-- Error of DistributionSpec.Parse: unknown distribution specification flag. -/
  | unknownSpecFlag (flag : GoString)
  /-- Error of Target.Parse: custom header flags on an OCI image layout target. -/
  | headerOnLayout
  /-- Error raised by the credential store collaborator. -/
  | store (message : GoString)
  deriving DecidableEq, Repr

/-- Source `parseFileRef` (target.go): split at the last colon, reject an
empty file path. -/
def parseFileRef (reference defaultMetadata : GoString) :
    Except OptionError (GoString × GoString) :=
  let i := LastIndex reference ':'
  let r : GoString × GoString :=
    if i < 0 then (reference, defaultMetadata)
    else (sliceTo reference i, sliceFrom reference (i + 1))
  if r.1 = [] then .error (.emptyFilePath reference)
  else .ok (r.1, r.2)

/-- Source `parseOCILayoutReference` (target.go): the raw reference has the
form `<path>[:<tag>|@<digest>]`. -/
def parseOCILayoutReference (raw : GoString) :
    Except OptionError (GoString × GoString) :=
  let idx := LastIndex raw '@'
  if idx ≠ -1 then
    .ok (sliceTo raw idx, sliceFrom raw (idx + 1))
  else
    parseFileRef raw []

/-! ### Standard-library string functions -/

/-- Go `strings.Cut(s, sep)` for a one-byte separator: the text before and
after the first separator, and whether it was found. -/
def Cut (s : GoString) (c : Char) : GoString × GoString × Bool :=
  let i := Index s c
  if i ≥ 0 then (sliceTo s i, sliceFrom s (i + 1), true)
  else (s, [], false)

/-- Go `strings.SplitN(s, sep, n)` for a one-byte separator and `n ≥ 0`: at
most `n` substrings, the last one being the unsplit remainder. -/
def SplitN (s : GoString) (c : Char) : Nat → List GoString
  | 0 => []
  | 1 => [s]
  | n + 2 =>
    let m := Index s c
    if m < 0 then [s]
    else sliceTo s m :: SplitN (sliceFrom s (m + 1)) c (n + 1)

/-- Go `unicode.IsSpace`. -/
def IsSpace (r : Char) : Bool :=
  let n := r.toNat
  n = 0x09 || n = 0x0A || n = 0x0B || n = 0x0C || n = 0x0D || n = 0x20 ||
  n = 0x85 || n = 0xA0 || n = 0x1680 || (0x2000 ≤ n && n ≤ 0x200A) ||
  n = 0x2028 || n = 0x2029 || n = 0x202F || n = 0x205F || n = 0x3000

/-- Go `strings.TrimSpace`: drop leading and trailing white space. -/
def TrimSpace (s : GoString) : GoString :=
  ((s.dropWhile IsSpace).reverse.dropWhile IsSpace).reverse

/-- Value of a run of decimal digits, most significant first. -/
def decimalValue (ds : GoString) : Nat :=
  ds.foldl (fun n ch => n * 10 + (ch.toNat - 48)) 0

/-- A decimal digit `0`..`9`. -/
def isDecimal (ch : Char) : Bool := 48 ≤ ch.toNat && ch.toNat ≤ 57

/-- Go `strconv.Atoi` with a 64-bit `int`: an optional sign followed by one
or more decimal digits, in the range of `int`; `none` stands for a non-nil
error (syntax or range). -/
def Atoi (s : GoString) : Option Int :=
  let neg := s.head? = some '-'
  let body := if s.head? = some '-' ∨ s.head? = some '+' then s.tail else s
  if body = [] then none
  else if !body.all isDecimal then none
  else
    let un := decimalValue body
    if neg then (if un > 2 ^ 63 then none else some (-(un : Int)))
    else (if un ≥ 2 ^ 63 then none else some (un : Int))

/-! ### Standard-library network address functions -/

/-- Go `net.IP` as returned by `net.ParseIP`: sixteen bytes. -/
abbrev IP := List Nat

/-- Go `net.IPv4(a, b, c, d)`: the IPv4-mapped sixteen-byte form. -/
def IPv4 (a b c d : Nat) : IP := [0, 0, 0, 0, 0, 0, 0, 0, 0, 0, 0xff, 0xff, a, b, c, d]

/-- Go `net.dtoi`: the leading decimal number of `s` as `(value, digits)`;
`none` when there is no digit or the value reaches `0xFFFFFF`. -/
def dtoi (s : GoString) : Option (Nat × Nat) :=
  let ds := s.takeWhile isDecimal
  if ds = [] then none
  else if decimalValue ds ≥ 0xFFFFFF then none
  else some (decimalValue ds, ds.length)

/-- The loop of Go `net.parseIPv4`: `todo` octets remain to be read, `first`
tells whether the next octet is the first one (no leading dot). -/
def parseIPv4Loop : (todo : Nat) → (first : Bool) → GoString → Option (List Nat × GoString)
  | 0, _, s => some ([], s)
  | todo + 1, first, s =>
    if s = [] then none
    else if !first && s.head? ≠ some '.' then none
    else
      let s1 := if first then s else s.tail
      match dtoi s1 with
      | none => none
      | some (n, c) =>
        if n > 0xFF then none
        else if c > 1 && s1.head? = some '0' then none
        else
          match parseIPv4Loop todo false (s1.drop c) with
          | none => none
          | some (rest, s2) => some (n :: rest, s2)

/-- The four octets read by Go `net.parseIPv4` (dotted decimal, no leading
zeros, each at most 255, nothing after the fourth). -/
def parseIPv4Octets (s : GoString) : Option (List Nat) :=
  match parseIPv4Loop 4 true s with
  | some (p, []) => some p
  | _ => none

/-- Go `net.parseIPv4`. -/
def parseIPv4 (s : GoString) : Option IP :=
  match parseIPv4Octets s with
  | some [a, b, c, d] => some (IPv4 a b c d)
  | _ => none

/-- Value of a hexadecimal digit, if it is one. -/
def hexDigit? (ch : Char) : Option Nat :=
  let n := ch.toNat
  if 48 ≤ n ∧ n ≤ 57 then some (n - 48)
  else if 97 ≤ n ∧ n ≤ 102 then some (n - 97 + 10)
  else if 65 ≤ n ∧ n ≤ 70 then some (n - 65 + 10)
  else none

/-- Go `net.xtoi`: the leading hexadecimal number of `s` as `(value, digits)`;
`none` when there is no digit or the value reaches `0xFFFFFF`. -/
def xtoi (s : GoString) : Option (Nat × Nat) :=
  let ds := s.takeWhile (fun ch => (hexDigit? ch).isSome)
  let n := ds.foldl (fun n ch => n * 16 + (hexDigit? ch).getD 0) 0
  if ds = [] then none
  else if n ≥ 0xFFFFFF then none
  else some (n, ds.length)

/-- The main loop of the IPv6 parser behind Go `net.ParseIP`.  `ip` holds the
bytes stored so far (the index `i` of the source is its length), `ellipsis`
the position of the `::` or `-1`.  A group has at most four hexadecimal
digits, as in the current parser (`netip.ParseAddr`); the parser of earlier
Go versions also took longer groups of value at most `0xFFFF`.  Every round
stores at least two bytes, so eight rounds are enough to fill sixteen
bytes.  Returns the bytes, the ellipsis position and the unread rest;
`none` stands for the `nil` result. -/
def parseIPv6Loop : (fuel : Nat) → (ip : List Nat) → (ellipsis : Int) → GoString →
    Option (List Nat × Int × GoString)
  | 0, ip, ellipsis, s => some (ip, ellipsis, s)
  | fuel + 1, ip, ellipsis, s =>
    if ip.length ≥ 16 then some (ip, ellipsis, s)
    else
      match xtoi s with
      | none => none
      | some (n, c) =>
        if c > 4 then none
        else if n > 0xFFFF then none
        else if c < s.length ∧ (s.drop c).head? = some '.' then
          -- trailing dotted-decimal IPv4
          if ellipsis < 0 ∧ ip.length ≠ 12 then none
          else if ip.length + 4 > 16 then none
          else
            match parseIPv4Octets s with
            | none => none
            | some p => some (ip ++ p, ellipsis, [])
        else
          let ip1 := ip ++ [n / 256 % 256, n % 256]
          let s1 := s.drop c
          if s1 = [] then some (ip1, ellipsis, s1)
          else if s1.head? ≠ some ':' ∨ s1.length = 1 then none
          else
            let s2 := s1.tail
            if s2.head? = some ':' then
              if ellipsis ≥ 0 then none
              else
                let s3 := s2.tail
                if s3 = [] then some (ip1, (ip1.length : Int), s3)
                else parseIPv6Loop fuel ip1 (ip1.length : Int) s3
            else parseIPv6Loop fuel ip1 ellipsis s2

/-- Go `net.parseIPv6` (without zone): colon-separated hexadecimal groups,
at most one `::`, an optional trailing dotted-decimal IPv4. -/
def parseIPv6 (s : GoString) : Option IP :=
  let lead := s.length ≥ 2 ∧ s.head? = some ':' ∧ s.tail.head? = some ':'
  let s0 := if lead then s.drop 2 else s
  let e0 : Int := if lead then 0 else -1
  if lead ∧ s0 = [] then some (List.replicate 16 0)
  else
    match parseIPv6Loop 8 [] e0 s0 with
    | none => none
    | some (ip, ellipsis, rest) =>
      if rest ≠ [] then none
      else if ip.length < 16 then
        if ellipsis < 0 then none
        else some (ip.take ellipsis.toNat ++ List.replicate (16 - ip.length) 0
                    ++ ip.drop ellipsis.toNat)
      else if ellipsis ≥ 0 then none
      else some ip

/-- The dispatch of Go `net.ParseIP`: scan for the first `.` or `:`. -/
def ParseIPScan (s : GoString) : GoString → Option IP
  | [] => none
  | ch :: rest =>
    if ch = '.' then parseIPv4 s
    else if ch = ':' then parseIPv6 s
    else ParseIPScan s rest

/-- Go `net.ParseIP`: an IPv4 dotted decimal or an IPv6 literal (no zone);
`none` stands for the `nil` result. -/
def ParseIP (s : GoString) : Option IP := ParseIPScan s s

/-- Library type `net.AddrError`, by its message. -/
inductive AddrError where
  /-- The message: missing port in address. -/
  | missingPort
  /-- The message: too many colons in address. -/
  | tooManyColons
  /-- The message: missing closing bracket in address. -/
  | missingBracket
  /-- The message: unexpected opening bracket in address. -/
  | unexpectedOpen
  /-- The message: unexpected closing bracket in address. -/
  | unexpectedClose
  deriving DecidableEq, Repr

/-- The first part of Go `net.SplitHostPort`, with `i` the position of the
last colon: the host and the offsets `j`, `k` from which stray brackets are
looked for. -/
def splitHost (hostport : GoString) (i : Int) : Except AddrError (GoString × Nat × Nat) :=
  if hostport.head? = some '[' then
    let e := Index hostport ']'
    if e < 0 then .error .missingBracket
    else if e + 1 = (hostport.length : Int) then .error .missingPort
    else if e + 1 = i then
      .ok (sliceTo (sliceFrom hostport 1) (e - 1), 1, (e + 1).toNat)
    else if (sliceFrom hostport (e + 1)).head? = some ':' then .error .tooManyColons
    else .error .missingPort
  else
    let host := sliceTo hostport i
    if Index host ':' ≥ 0 then .error .tooManyColons
    else .ok (host, 0, 0)

/-- Go `net.SplitHostPort`, returning `(host, port, err)`: on every error
the host and the port are empty. -/
def SplitHostPort (hostport : GoString) : GoString × GoString × Option AddrError :=
  let i := LastIndex hostport ':'
  if i < 0 then ([], [], some .missingPort)
  else
    match splitHost hostport i with
    | .error e => ([], [], some e)
    | .ok (host, j, k) =>
      if Index (hostport.drop j) '[' ≥ 0 then ([], [], some .unexpectedOpen)
      else if Index (hostport.drop k) ']' ≥ 0 then ([], [], some .unexpectedClose)
      else (host, sliceFrom hostport (i + 1), none)

/-! ### Override dialer and `parseResolve` (remote.go) -/

/-- One registration of the override dialer: connections to `host:hostPort`
go to `address:addressPort`. -/
structure OverrideEntry where
  host : GoString
  hostPort : Int
  address : IP
  addressPort : Int
  deriving DecidableEq, Repr

/-- Modelled from the spec: `onet.Dialer` (package `net` of this repository)
is the table of `OverrideEntry` used at dial time.  It is kept as the
sequence of registrations in the order of the `Add` calls. -/
structure Dialer where
  entries : List OverrideEntry
  deriving DecidableEq, Repr

/-- Modelled from the spec: `Dialer.Add(host, hostPort, address, addressPort)`
registers one more entry. -/
def Dialer.Add (d : Dialer) (host : GoString) (hostPort : Int) (address : IP)
    (addressPort : Int) : Dialer :=
  ⟨d.entries ++ [⟨host, hostPort, address, addressPort⟩]⟩

/-- The dial function returned by `parseResolve`: the base dial function
unchanged, or the `DialContext` of a dialer (whose base is the base dial
function). -/
inductive DialFunc where
  | base
  | override (dialer : Dialer)
  deriving DecidableEq, Repr

/-- The entries a dial function consults before falling back to the base. -/
def DialFunc.registered : DialFunc → List OverrideEntry
  | .base => []
  | .override d => d.entries

/-- The closure `formatError` of `parseResolve`. -/
def formatError (param : GoString) (message : String) : OptionError :=
  .resolveFormat param message.toList

/-- The body of the `for _, r := range opts.resolveFlag` loop of
`parseResolve`, iterated over the remaining entries. -/
def parseResolveLoop (dialer : Dialer) : List GoString → Except OptionError Dialer
  | [] => .ok dialer
  | r :: rest =>
    let parts := SplitN r ':' 4
    let length := parts.length
    if length < 3 then
      .error (formatError r "expecting host:port:address[:address_port]")
    else
      let host := parts.getD 0 []
      match Atoi (parts.getD 1 []) with
      | none => .error (formatError r "expecting uint64 host port")
      | some hostPort =>
        match ParseIP (parts.getD 2 []) with
        | none => .error (formatError r "invalid IP address")
        | some address =>
          if length > 3 then
            match Atoi (parts.getD 3 []) with
            | none => .error (formatError r "expecting uint64 address port")
            | some addressPort =>
              parseResolveLoop (dialer.Add host hostPort address addressPort) rest
          else
            parseResolveLoop (dialer.Add host hostPort address hostPort) rest

/-- Source `Remote.parseResolve` (remote.go), as a function of the elements
of `opts.resolveFlag`. -/
def parseResolve (resolveFlag : List GoString) : Except OptionError DialFunc :=
  if resolveFlag.length = 0 then .ok .base
  else
    match parseResolveLoop ⟨[]⟩ resolveFlag with
    | .error e => .error e
    | .ok dialer => .ok (.override dialer)

/-! ### Slices and `BinaryTarget.Parse` (target.go) -/

/-- A Go slice header: backing array, offset into it, length, capacity. -/
structure Slice where
  arr : Nat
  off : Nat
  len : Nat
  cap : Nat
  deriving DecidableEq, Repr

/-- The backing arrays of string slices, by identifier. -/
abbrev Heap := List (List GoString)

/-- The elements of a slice. -/
def Slice.elems (h : Heap) (s : Slice) : List GoString :=
  ((h.getD s.arr []).drop s.off).take s.len

/-- Go builtin `append(s, vals...)`.  When the capacity of `s` suffices the
values are written into the backing array of `s` behind its length and the
result shares that array; otherwise a new, sufficiently large array is
allocated.  `grow cap needed` is the capacity the runtime picks on
reallocation (at least `needed` is always allocated). -/
def goAppend (grow : Nat → Nat → Nat) (h : Heap) (s : Slice) (vals : List GoString) :
    Heap × Slice :=
  let needed := s.len + vals.length
  if needed ≤ s.cap then
    let a := h.getD s.arr []
    let p := s.off + s.len
    (h.set s.arr (a.take p ++ vals ++ a.drop (p + vals.length)),
      { s with len := needed })
  else
    let newcap := max needed (grow s.cap needed)
    (h ++ [s.elems h ++ vals ++ List.replicate (newcap - needed) []],
      { arr := h.length, off := 0, len := needed, cap := newcap })

/-- The resolve lists of a `BinaryTarget` with the memory they live in:
`opts.resolveFlag`, `opts.From.resolveFlag` and `opts.To.resolveFlag`. -/
structure BinaryTarget where
  heap : Heap
  resolveFlag : Slice
  fromResolveFlag : Slice
  toResolveFlag : Slice
  deriving DecidableEq, Repr

/-- Source `BinaryTarget.Parse` (target.go), the two assignments
`opts.From.resolveFlag = append(opts.resolveFlag, opts.From.resolveFlag...)`
and `opts.To.resolveFlag = append(opts.resolveFlag, opts.To.resolveFlag...)`.
The other statements (sharing the `warned` map, the trailing `Parse(opts)`)
neither read nor write a resolve list. -/
def BinaryTarget.Parse (grow : Nat → Nat → Nat) (opts : BinaryTarget) : BinaryTarget :=
  let r1 := goAppend grow opts.heap opts.resolveFlag (opts.fromResolveFlag.elems opts.heap)
  let r2 := goAppend grow r1.1 opts.resolveFlag (opts.toResolveFlag.elems r1.1)
  { heap := r2.1, resolveFlag := opts.resolveFlag,
    fromResolveFlag := r1.2, toResolveFlag := r2.2 }

/-- The source side's override list, as `parseResolve` will range over it. -/
def BinaryTarget.fromList (opts : BinaryTarget) : List GoString :=
  opts.fromResolveFlag.elems opts.heap

/-- The destination side's override list. -/
def BinaryTarget.toList (opts : BinaryTarget) : List GoString :=
  opts.toResolveFlag.elems opts.heap

/-- The shared (base) override list. -/
def BinaryTarget.baseList (opts : BinaryTarget) : List GoString :=
  opts.resolveFlag.elems opts.heap

/-! ### Distribution spec (spec.go) -/

/-- Source `DistributionSpec` (spec.go): `ReferrersAPI` is a `*bool`. -/
structure DistributionSpec where
  ReferrersAPI : Option Bool
  specFlag : GoString
  deriving DecidableEq, Repr

/-- Source `DistributionSpec.Parse` (spec.go): the receiver after the call
and the returned error. -/
def DistributionSpec.Parse (opts : DistributionSpec) : DistributionSpec × Option OptionError :=
  if opts.specFlag = [] then
    ({ opts with ReferrersAPI := none }, none)
  else if opts.specFlag = "v1.1-referrers-tag".toList then
    ({ opts with ReferrersAPI := some false }, none)
  else if opts.specFlag = "v1.1-referrers-api".toList then
    ({ opts with ReferrersAPI := some true }, none)
  else
    (opts, some (.unknownSpecFlag opts.specFlag))

/-! ### Remote options (remote.go) and credentials (cred.go) -/

/-- Go `http.Header`, a `map[string][]string`, as an association list with
one pair per key; a missing key reads as the nil slice. -/
abbrev Header := List (GoString × List GoString)

/-- Map read `headers[name]`. -/
def Header.get (h : Header) (name : GoString) : List GoString :=
  match h with
  | [] => []
  | (k, v) :: rest => if k = name then v else Header.get rest name

/-- Map write `headers[name] = values`. -/
def Header.set (h : Header) (name : GoString) (values : List GoString) : Header :=
  match h with
  | [] => [(name, values)]
  | (k, v) :: rest =>
    if k = name then (k, values) :: rest else (k, v) :: Header.set rest name values

/-- Source `Remote` (remote.go).  `resolveFlag` and `headerFlags` hold the
elements of the slices; `plainHTTP` is the (non-nil) function value. -/
structure Remote extends DistributionSpec where
  CACertFilePath : GoString
  Insecure : Bool
  Configs : List GoString
  Username : GoString
  PasswordFromStdin : Bool
  Password : GoString
  resolveFlag : List GoString
  applyDistributionSpec : Bool
  headerFlags : List GoString
  headers : Header
  plainHTTP : Unit → Bool × Bool

/-- Source `NewRemote` (remote.go). -/
def NewRemote (plainHTTP : Bool) (username password : GoString) : Remote :=
  { ReferrersAPI := none, specFlag := [], CACertFilePath := [], Insecure := false,
    Configs := [], Username := username, PasswordFromStdin := false,
    Password := password, resolveFlag := [], applyDistributionSpec := false,
    headerFlags := [], headers := [],
    plainHTTP := fun _ => (plainHTTP, plainHTTP) }

/-- The body of the `for _, h := range opts.headerFlags` loop of
`parseCustomHeaders`, iterated over the remaining flags. -/
def parseCustomHeadersLoop (headers : Header) : List GoString → Except OptionError Header
  | [] => .ok headers
  | h :: rest =>
    let c := Cut h ':'
    if !c.2.2 || TrimSpace c.1 = [] then .error (.invalidHeader h)
    else parseCustomHeadersLoop (headers.set c.1 (headers.get c.1 ++ [c.2.1])) rest

/-- Source `Remote.parseCustomHeaders` (remote.go): the receiver after the
call and the returned error. -/
def Remote.parseCustomHeaders (opts : Remote) : Remote × Option OptionError :=
  if opts.headerFlags.length ≠ 0 then
    match parseCustomHeadersLoop [] opts.headerFlags with
    | .error e => (opts, some e)
    | .ok headers => ({ opts with headers := headers }, none)
  else (opts, none)

/-- Source `Remote.isPlainHttp` (remote.go). -/
def Remote.isPlainHttp (opts : Remote) (registry : GoString) : Bool :=
  let r := opts.plainHTTP ()
  if r.2 then r.1
  else
    let host := (SplitHostPort registry).1
    if host = "localhost".toList || registry = "localhost".toList then true
    else r.1

namespace auth

/-- Library type `auth.Credential` of oras-go. -/
structure Credential where
  Username : GoString
  Password : GoString
  RefreshToken : GoString
  AccessToken : GoString
  deriving DecidableEq, Repr

/-- Library value `auth.EmptyCredential`: the zero credential. -/
def EmptyCredential : Credential := ⟨[], [], [], []⟩

end auth

namespace credential

/-- Source `credential.Credential` (cred.go). -/
def Credential (username password : GoString) : auth.Credential :=
  if username = [] then
    { Username := [], Password := [], RefreshToken := password, AccessToken := [] }
  else
    { Username := username, Password := password, RefreshToken := [], AccessToken := [] }

/-- The credential-store collaborator: how the default docker config store
and a store for a config path open (each may fail). -/
structure StoreOpener (S : Type) where
  fromDocker : Except OptionError S
  open_ : GoString → Except OptionError S

/-- A store as returned by `NewStore`: the docker store, or the chain
`NewStoreWithFallbacks(stores[0], stores[1:]...)` of the opened stores. -/
inductive Store (S : Type) where
  | docker (s : S)
  | withFallbacks (stores : List S)
  deriving DecidableEq, Repr

/-- The loop of `NewStore` opening one store per config path, in order. -/
def openAll {S : Type} (env : StoreOpener S) : List GoString → Except OptionError (List S)
  | [] => .ok []
  | config :: rest =>
    match env.open_ config with
    | .error e => .error e
    | .ok store =>
      match openAll env rest with
      | .error e => .error e
      | .ok stores => .ok (store :: stores)

/-- Source `credential.NewStore` (cred.go). -/
def NewStore {S : Type} (env : StoreOpener S) (configPaths : List GoString) :
    Except OptionError (Store S) :=
  if configPaths.length = 0 then
    match env.fromDocker with
    | .error e => .error e
    | .ok s => .ok (.docker s)
  else
    match openAll env configPaths with
    | .error e => .error e
    | .ok stores => .ok (.withFallbacks stores)

end credential

/-- Source `Remote.Credential` (remote.go). -/
def Remote.Credential (opts : Remote) : auth.Credential :=
  credential.Credential opts.Username opts.Password

/-- Source `Remote.tlsConfig`: the only field set is `InsecureSkipVerify`. -/
structure TLSConfig where
  InsecureSkipVerify : Bool
  deriving DecidableEq, Repr

/-- Source `Remote.tlsConfig` (remote.go). -/
def Remote.tlsConfig (opts : Remote) : TLSConfig := ⟨opts.Insecure⟩

/-- The transport chain built by `authClient`: the retry transport over the
base transport (TLS config and dial function), optionally wrapped by the
debug-logging `Transport` of transport.go. -/
inductive RoundTripper where
  | retry (tls : TLSConfig) (dial : DialFunc)
  | debug (inner : RoundTripper)
  deriving DecidableEq, Repr

/-- The credential lookup installed in the client: a constant function, or
the lookup of a credential store. -/
inductive CredentialFunc (S : Type) where
  | const (cred : auth.Credential)
  | ofStore (store : credential.Store S)
  deriving DecidableEq, Repr

/-- The lookup result for a registry, given how a store answers. -/
def CredentialFunc.lookup {S : Type} (query : credential.Store S → GoString → auth.Credential) :
    CredentialFunc S → GoString → auth.Credential
  | .const cred, _ => cred
  | .ofStore store, registry => query store registry

/-- Library type `auth.Client` as assembled by `authClient` (the cache is
always a fresh one). -/
structure AuthClient (S : Type) where
  Transport : RoundTripper
  Header : Header
  Credential : CredentialFunc S
  deriving DecidableEq, Repr

/-- Source `Remote.authClient` (remote.go). -/
def Remote.authClient {S : Type} (env : credential.StoreOpener S) (opts : Remote)
    (_registry : GoString) (debug : Bool) : Except OptionError (AuthClient S) :=
  let config := opts.tlsConfig
  match parseResolve opts.resolveFlag with
  | .error e => .error e
  | .ok dialContext =>
    let transport0 := RoundTripper.retry config dialContext
    let transport := if debug then RoundTripper.debug transport0 else transport0
    let cred := opts.Credential
    if cred ≠ auth.EmptyCredential then
      .ok { Transport := transport, Header := opts.headers, Credential := .const cred }
    else
      match credential.NewStore env opts.Configs with
      | .error e => .error e
      | .ok store =>
        .ok { Transport := transport, Header := opts.headers, Credential := .ofStore store }

/-! ### Specification-side descriptions -/

/-- The registration the specification prescribes for an override entry:
host is field 1, hostPort the integer value of field 2, address the IP of
field 3, addressPort the integer value of field 4 when a fourth field is
present and hostPort otherwise; `none` when a field does not parse. -/
def overrideOf (r : GoString) : Option OverrideEntry :=
  let fields := SplitN r ':' 4
  match Atoi (fields.getD 1 []), ParseIP (fields.getD 2 []) with
  | some hostPort, some address =>
    match (if fields.length ≥ 4 then Atoi (fields.getD 3 []) else some hostPort) with
    | some addressPort => some ⟨fields.getD 0 [], hostPort, address, addressPort⟩
    | none => none
  | _, _ => none

/-- A copy between two registries with three shared override entries, one
entry for the source only and one for the destination only.  The shared
slice has length 3 and capacity 4, as a slice grown by appending three
flags one at a time has. -/
def copyOverrides : BinaryTarget :=
  { heap := [["s1.io:443:10.0.0.1".toList, "s2.io:443:10.0.0.2".toList,
               "s3.io:443:10.0.0.3".toList, []],
             ["reg.io:443:10.0.1.1".toList],
             ["reg.io:443:10.0.2.2".toList]],
    resolveFlag := ⟨0, 0, 3, 4⟩,
    fromResolveFlag := ⟨1, 0, 1, 1⟩,
    toResolveFlag := ⟨2, 0, 1, 1⟩ }

/-- The registry's host with any port stripped: the host of the address
when it splits into host and port, the registry itself when it does not. -/
def hostWithoutPort (registry : GoString) : GoString :=
  match SplitHostPort registry with
  | (host, _, none) => host
  | (_, _, some _) => registry

/-- The name of a custom header flag: the text before its first colon. -/
def headerName (h : GoString) : GoString := h.takeWhile (fun ch => ch ≠ ':')

/-- The value of a custom header flag: the text after its first colon. -/
def headerValue (h : GoString) : GoString := (h.dropWhile (fun ch => ch ≠ ':')).tail

/-- A malformed custom header flag: it has no colon, or its name is empty
after trimming white space. -/
def malformedHeader (h : GoString) : Bool :=
  !h.contains ':' || TrimSpace (headerName h) = []

/-- A slice header fits the heap: its length is within its capacity and,
unless the capacity is zero (the nil slice), its window lies inside an
allocated backing array. -/
def Slice.valid (h : Heap) (s : Slice) : Prop :=
  s.len ≤ s.cap ∧
    (s.cap = 0 ∨ (s.arr < h.length ∧ s.off + s.cap ≤ (h.getD s.arr []).length))

/-! ### Platform (platform.go) -/

/-- Go `strings.Count(s, sep)` for a one-byte separator. -/
def Count (s : GoString) (c : Char) : Nat := s.count c

/-- Go `strings.Split(s, sep)` for a one-byte separator: `genSplit` with
`n = Count(s, sep) + 1` substrings. -/
def Split (s : GoString) (c : Char) : List GoString := SplitN s c (Count s c + 1)

namespace ocispec

/-- Library type `ocispec.Platform` of the OCI image spec. -/
structure Platform where
  Architecture : GoString
  OS : GoString
  OSVersion : GoString
  OSFeatures : List GoString
  Variant : GoString
  deriving DecidableEq, Repr

end ocispec

/-- Errors raised by `Platform.Parse`. -/
inductive PlatformError where
  /-- The message: failed to parse platform, expected format os[/arch[/variant]]. -/
  | format (platform : GoString)
  /-- The message: invalid platform: OS cannot be empty. -/
  | emptyOS
  /-- The message: invalid platform: Architecture cannot be empty. -/
  | emptyArchitecture
  deriving DecidableEq, Repr

set_option linter.dupNamespace false in
/-- Source `Platform` of package `option` (platform.go): the requested
platform string and the parsed `*ocispec.Platform`. -/
structure Platform where
  platform : GoString
  Platform : Option ocispec.Platform
  deriving DecidableEq, Repr

/-- Source `Platform.Parse` (platform.go): the receiver after the call and
the returned error.  `GOARCH` is the constant `runtime.GOARCH` of the host. -/
def Platform.Parse (GOARCH : GoString) (opts : OrasSdk.Platform) :
    OrasSdk.Platform × Option PlatformError :=
  if opts.platform = [] then (opts, none)
  else
    let c := Cut opts.platform ':'
    let platformStr := c.1
    let p0 : ocispec.Platform :=
      { Architecture := [], OS := [], OSVersion := c.2.1, OSFeatures := [], Variant := [] }
    let parts := Split platformStr '/'
    let sw : Except PlatformError ocispec.Platform :=
      if parts.length = 3 then
        .ok { p0 with Variant := parts.getD 2 [], Architecture := parts.getD 1 [] }
      else if parts.length = 2 then
        .ok { p0 with Architecture := parts.getD 1 [] }
      else if parts.length = 1 then
        .ok { p0 with Architecture := GOARCH }
      else
        .error (.format opts.platform)
    match sw with
    | .error e => (opts, some e)
    | .ok p1 =>
      let p : ocispec.Platform := { p1 with OS := parts.getD 0 [] }
      if p.OS = [] then (opts, some .emptyOS)
      else if p.Architecture = [] then (opts, some .emptyArchitecture)
      else ({ opts with Platform := some p }, none)

/-- The fields of a platform string: the text before its first colon, split
at every slash. -/
def platformFields (platform : GoString) : List GoString :=
  Split (platform.takeWhile (fun ch => ch ≠ ':')) '/'

/-- The OS version of a platform string: the text after its first colon. -/
def platformOSVersion (platform : GoString) : GoString :=
  (platform.dropWhile (fun ch => ch ≠ ':')).tail

/-- The platform a well-formed platform string stands for: OS is the first
field, Architecture the second field or the host architecture when there
is none, Variant the third field when present, OSVersion the text after
the first colon. -/
def platformOf (GOARCH platform : GoString) : ocispec.Platform :=
  { OS := (platformFields platform).getD 0 [],
    Architecture :=
      if 2 ≤ (platformFields platform).length then (platformFields platform).getD 1 []
      else GOARCH,
    Variant :=
      if 3 ≤ (platformFields platform).length then (platformFields platform).getD 2 []
      else [],
    OSVersion := platformOSVersion platform,
    OSFeatures := [] }

/-! ### Warning deduplication (remote.go, target.go) -/

namespace remote

/-- Library type `remote.WarningValue` of oras-go: the value of a warning
header. -/
structure WarningValue where
  Code : Int
  Agent : GoString
  Text : GoString
  deriving DecidableEq, Repr

/-- Library type `remote.Warning` of oras-go: it embeds the warning value. -/
structure Warning extends WarningValue
  deriving DecidableEq, Repr

end remote

/-- The maps allocated for warning deduplication.  `tables` are the
`map[string]*sync.Map` objects, each an association from registry to the
set it points to; `sets` are the `sync.Map` objects, each given by the keys
stored in it.  A pointer is the position of its object. -/
structure WarnHeap where
  tables : List (List (GoString × Nat))
  sets : List (List remote.WarningValue)
  deriving DecidableEq, Repr

/-- The closure returned by `handleWarning`: it captures the `*sync.Map` of
its registry and the logger carrying the registry attribute. -/
structure WarningHandler where
  registry : GoString
  warned : Nat
  deriving DecidableEq, Repr

/-- Source `Remote.handleWarning` (remote.go), as a function of the heap and
of the field `opts.warned` (`none` for nil, otherwise the table it points
to): the heap and the field after the call, and the returned closure. -/
def Remote.handleWarning (heap : WarnHeap) (warned : Option Nat) (registry : GoString) :
    WarnHeap × Option Nat × WarningHandler :=
  let r1 : WarnHeap × Nat :=
    match warned with
    | none => ({ heap with tables := heap.tables ++ [[]] }, heap.tables.length)
    | some t => (heap, t)
  match (r1.1.tables.getD r1.2 []).lookup registry with
  | some p => (r1.1, some r1.2, ⟨registry, p⟩)
  | none =>
    ({ tables := r1.1.tables.set r1.2
          ((registry, r1.1.sets.length) :: r1.1.tables.getD r1.2 []),
       sets := r1.1.sets ++ [[]] },
      some r1.2, ⟨registry, r1.1.sets.length⟩)

/-- The body of the closure returned by `handleWarning`:
`warned.LoadOrStore(warning.WarningValue, ...)` and, when the value was not
loaded, `logger.Warn(warning.Text)`.  Returns the heap after the call and
the record passed to the logger, if any: the registry attribute and the
text. -/
def WarningHandler.call (h : WarningHandler) (heap : WarnHeap) (warning : remote.Warning) :
    WarnHeap × Option (GoString × GoString) :=
  let stored := heap.sets.getD h.warned []
  if warning.toWarningValue ∈ stored then (heap, none)
  else
    ({ heap with sets := heap.sets.set h.warned (stored ++ [warning.toWarningValue]) },
      some (h.registry, warning.Text))

/-- The two sides of a `BinaryTarget`; a single Remote is one side alone. -/
inductive Side where
  | source
  | destination
  deriving DecidableEq, Repr

/-- The warning state of a run: the heap, the fields `opts.From.warned` and
`opts.To.warned`, the handlers obtained so far and the records passed to
the logger so far. -/
structure WarnState where
  heap : WarnHeap
  fromWarned : Option Nat
  toWarned : Option Nat
  handlers : List WarningHandler
  log : List (GoString × GoString)
  deriving DecidableEq, Repr

/-- Source `BinaryTarget.Parse` (target.go), the two assignments
`opts.From.warned = make(map[string]*sync.Map)` and
`opts.To.warned = opts.From.warned`. -/
def BinaryTarget.ParseWarned (s : WarnState) : WarnState :=
  { s with
    heap := { s.heap with tables := s.heap.tables ++ [[]] },
    fromWarned := some s.heap.tables.length,
    toWarned := some s.heap.tables.length }

/-- What happens to the warning state, one event after the other: a handler
is obtained from `handleWarning` on one side for a registry (as
`NewRepository` and `NewRegistry` do), or the handler obtained by the
`handler`-th such call is invoked with a warning. -/
inductive WarnEvent where
  | obtain (side : Side) (registry : GoString)
  | deliver (handler : Nat) (warning : remote.Warning)
  deriving DecidableEq, Repr

/-- One event on the warning state.  Invoking a handler that has not been
obtained yet is no event at all. -/
def WarnState.step (s : WarnState) : WarnEvent → WarnState
  | .obtain .source registry =>
    let r := Remote.handleWarning s.heap s.fromWarned registry
    { s with heap := r.1, fromWarned := r.2.1, handlers := s.handlers ++ [r.2.2] }
  | .obtain .destination registry =>
    let r := Remote.handleWarning s.heap s.toWarned registry
    { s with heap := r.1, toWarned := r.2.1, handlers := s.handlers ++ [r.2.2] }
  | .deliver i warning =>
    match s.handlers.get? i with
    | none => s
    | some h =>
      let r := h.call s.heap warning
      { s with heap := r.1, log := s.log ++ r.2.toList }

/-- A sequence of events on the warning state. -/
def WarnState.run (s : WarnState) (events : List WarnEvent) : WarnState :=
  events.foldl WarnState.step s

/-- A delivered warning as the specification sees it: the registry it was
delivered for and its value. -/
abbrev Delivery := GoString × remote.WarningValue

/-- The warnings delivered by a sequence of events, in order, each with the
registry of the handler it went through; `obtained` lists the registries
of the handlers obtained before. -/
def deliveriesFrom (obtained : List GoString) : List WarnEvent → List Delivery
  | [] => []
  | .obtain _ registry :: rest => deliveriesFrom (obtained ++ [registry]) rest
  | .deliver i warning :: rest =>
    match obtained.get? i with
    | none => deliveriesFrom obtained rest
    | some registry => (registry, warning.toWarningValue) :: deliveriesFrom obtained rest

/-- The warnings delivered by a sequence of events that starts with no
handler. -/
def deliveries (events : List WarnEvent) : List Delivery := deliveriesFrom [] events

/-- The deliveries the specification surfaces: those with no earlier
delivery of the same registry and the same value. -/
def surfaced (ds : List Delivery) : List Delivery :=
  (List.range ds.length).filterMap (fun i =>
    match ds.get? i with
    | none => none
    | some d => if d ∈ ds.take i then none else some d)

/-- The records the logger receives for surfaced deliveries: the registry
attribute and the text of the warning. -/
def logOf (ds : List Delivery) : List (GoString × GoString) :=
  ds.map (fun d => (d.1, d.2.Text))

/-- The invariant of the table `t` and the sets it points to, for the
handlers obtained so far and after the deliveries `ds`: every handler holds
the set its registry maps to, distinct registries map to distinct sets, and
the set of a registry holds exactly the values delivered for it. -/
def TableInv (t : Nat) (heap : WarnHeap) (handlers : List WarningHandler)
    (ds : List Delivery) : Prop :=
  t < heap.tables.length ∧
  (∀ h ∈ handlers, (heap.tables.getD t []).lookup h.registry = some h.warned) ∧
  (∀ r p, (heap.tables.getD t []).lookup r = some p →
    p < heap.sets.length ∧ ∀ v, v ∈ heap.sets.getD p [] ↔ (r, v) ∈ ds) ∧
  (∀ r r2 p, (heap.tables.getD t []).lookup r = some p →
    (heap.tables.getD t []).lookup r2 = some p → r = r2) ∧
  (∀ d ∈ ds, ∃ p, (heap.tables.getD t []).lookup d.1 = some p)

/-- The invariant of a warning state whose used sides share the table `t`,
after the deliveries `ds`: the table invariant, and the log is what the
specification surfaces. -/
def WarnInv (used : Side → Prop) (t : Nat) (s : WarnState) (ds : List Delivery) : Prop :=
  (used .source → s.fromWarned = some t) ∧
  (used .destination → s.toWarned = some t) ∧
  TableInv t s.heap s.handlers ds ∧
  s.log = logOf (surfaced ds)

/-! ### Concurrent deliveries (remote.go) -/

/-- The first step of the closure returned by `handleWarning`:
`warned.LoadOrStore(warning.WarningValue, ...)`, which `sync.Map` carries
out as one atomic step.  Returns the heap after the call and `loaded`. -/
def WarningHandler.loadOrStore (h : WarningHandler) (heap : WarnHeap)
    (value : remote.WarningValue) : WarnHeap × Bool :=
  let stored := heap.sets.getD h.warned []
  if value ∈ stored then (heap, true)
  else ({ heap with sets := heap.sets.set h.warned (stored ++ [value]) }, false)

/-- A transfer worker (goroutine) delivering warnings through a handler:
the warnings it still has to deliver and, while it is inside the closure
between the `LoadOrStore` call and the `if !loaded` statement, the warning
in hand with the value of `loaded`. -/
structure Worker where
  handler : WarningHandler
  todo : List remote.Warning
  pending : Option (remote.Warning × Bool)

/-- One step of a worker.  Inside the closure it runs
`if !loaded { logger.Warn(warning.Text) }` and returns from it; otherwise it
enters the closure with its next warning and runs `LoadOrStore`; a worker
with nothing left does nothing.  Returns the worker, the heap, and the
call of the logger, if any: the registry attribute and the warning. -/
def Worker.step (w : Worker) (heap : WarnHeap) :
    Worker × WarnHeap × Option (GoString × remote.Warning) :=
  match w.pending with
  | some (warning, loaded) =>
    ({ w with pending := none }, heap,
      if loaded then none else some (w.handler.registry, warning))
  | none =>
    match w.todo with
    | [] => (w, heap, none)
    | warning :: rest =>
      let r := w.handler.loadOrStore heap warning.toWarningValue
      ({ w with todo := rest, pending := some (warning, r.2) }, r.1, none)

/-- The state of concurrent deliveries: the shared heap, the workers by
number, and the calls of the logger so far. -/
structure ConcState where
  heap : WarnHeap
  workers : Nat → Worker
  log : List (GoString × remote.Warning)

/-- The scheduler lets worker `i` take its next step. -/
def ConcState.step (s : ConcState) (i : Nat) : ConcState :=
  let r := (s.workers i).step s.heap
  { heap := r.2.1, workers := Function.update s.workers i r.1,
    log := s.log ++ r.2.2.toList }

/-- An interleaving: the workers take their steps in the order of the
schedule. -/
def ConcState.run (s : ConcState) (schedule : List Nat) : ConcState :=
  schedule.foldl ConcState.step s

/-- The values surfaced by the calls of the logger, in order. -/
def surfacedValues (log : List (GoString × remote.Warning)) : List remote.WarningValue :=
  log.map (fun e => e.2.toWarningValue)

/-- The number of steps a worker still has to take. -/
def Worker.stepsLeft (w : Worker) : Nat :=
  2 * w.todo.length + (if w.pending.isSome then 1 else 0)

/-- The invariant of concurrent deliveries to the set `p`, which held the
values `before` at the start, by workers that deliver the values
`delivered`: the surfaced values are distinct, a value is in at most one
hand between its first store and its log call and is not logged yet, what
is logged or in hand was stored by a worker, every value stored by a
worker is logged or in hand, and the set holds what it held before and
what the workers no longer have to deliver. -/
def ConcInv (p : Nat) (before : List remote.WarningValue)
    (delivered : remote.WarningValue → Prop) (s : ConcState) : Prop :=
  p < s.heap.sets.length ∧
  (∀ i, (s.workers i).handler.warned = p) ∧
  (surfacedValues s.log).Nodup ∧
  (∀ i j x y, (s.workers i).pending = some (x, false) →
    (s.workers j).pending = some (y, false) →
    x.toWarningValue = y.toWarningValue → i = j) ∧
  (∀ i x, (s.workers i).pending = some (x, false) →
    x.toWarningValue ∉ surfacedValues s.log) ∧
  (∀ v ∈ surfacedValues s.log, v ∈ s.heap.sets.getD p [] ∧ v ∉ before) ∧
  (∀ i x, (s.workers i).pending = some (x, false) →
    x.toWarningValue ∈ s.heap.sets.getD p [] ∧ x.toWarningValue ∉ before) ∧
  (∀ v ∈ s.heap.sets.getD p [], v ∉ before →
    v ∈ surfacedValues s.log ∨
      ∃ i x, (s.workers i).pending = some (x, false) ∧ x.toWarningValue = v) ∧
  (∀ v ∈ before, v ∈ s.heap.sets.getD p []) ∧
  (∀ v, (v ∈ s.heap.sets.getD p [] ∨ ∃ i, ∃ x ∈ (s.workers i).todo, x.toWarningValue = v) ↔
    (v ∈ before ∨ delivered v))

/-- Two workers that deliver the same warning through handlers of the
registry `reg.io`, which hold the set 0; every other worker is idle. -/
def twoWorkers (i : Nat) : Worker :=
  if i < 2 then
    ⟨⟨"reg.io".toList, 0⟩, [⟨⟨299, [], "deprecated".toList⟩⟩], none⟩
  else
    ⟨⟨"reg.io".toList, 0⟩, [], none⟩

/-! ## Theorems -/

/-! ### Searching a string -/

theorem lastIndex?_eq_none (c : Char) (s : GoString) :
    lastIndex? c s = none ↔ c ∉ s := by
  induction s with
  | nil => simp [lastIndex?]
  | cons x xs ih =>
    simp only [lastIndex?]
    cases h : lastIndex? c xs with
    | some i =>
      have : ¬ (c ∉ xs) := fun hn => by rw [ih.mpr hn] at h; cases h
      simp at this
      simp [this]
    | none =>
      have hx := ih.mp h
      by_cases hxc : x = c
      · simp [hxc]
      · simp [hxc, hx, Ne.symm hxc]

theorem lastIndex?_some (c : Char) (s : GoString) (i : Nat) (h : lastIndex? c s = some i) :
    s = s.take i ++ c :: s.drop (i + 1) ∧ c ∉ s.drop (i + 1) := by
  induction s generalizing i with
  | nil => simp [lastIndex?] at h
  | cons x xs ih =>
    simp only [lastIndex?] at h
    cases hl : lastIndex? c xs with
    | some k =>
      rw [hl] at h
      simp at h
      subst h
      have := ih k hl
      simp only [List.take_succ_cons, List.drop_succ_cons, List.cons_append]
      exact ⟨by rw [← this.1], this.2⟩
    | none =>
      rw [hl] at h
      by_cases hxc : x = c
      · simp [hxc] at h
        subst h
        simp [hxc, (lastIndex?_eq_none c xs).mp hl]
      · simp [hxc] at h

theorem index?_eq_none (c : Char) (s : GoString) :
    index? c s = none ↔ c ∉ s := by
  induction s with
  | nil => simp [index?]
  | cons x xs ih =>
    simp only [index?]
    by_cases hxc : x = c
    · simp [hxc]
    · cases h : index? c xs with
      | some i =>
        have : ¬ (c ∉ xs) := fun hn => by rw [ih.mpr hn] at h; cases h
        simp at this
        simp [hxc, this]
      | none =>
        simp [hxc, ih.mp h, Ne.symm hxc]

theorem index?_some (c : Char) (s : GoString) (i : Nat) (h : index? c s = some i) :
    s = s.take i ++ c :: s.drop (i + 1) ∧ c ∉ s.take i := by
  induction s generalizing i with
  | nil => simp [index?] at h
  | cons x xs ih =>
    simp only [index?] at h
    by_cases hxc : x = c
    · simp [hxc] at h
      subst h
      simp [hxc]
    · simp only [hxc, if_false] at h
      cases hl : index? c xs with
      | some k =>
        rw [hl] at h
        simp at h
        subst h
        have := ih k hl
        simp only [List.take_succ_cons, List.drop_succ_cons, List.cons_append]
        refine ⟨by rw [← this.1], ?_⟩
        simp [Ne.symm hxc, this.2]
      | none =>
        rw [hl] at h
        simp at h

/-! ### Local layout references (C1, C2) -/

theorem LastIndex_eq_neg_one (s : GoString) (c : Char) :
    LastIndex s c = -1 ↔ c ∉ s := by
  unfold LastIndex
  cases h : lastIndex? c s with
  | none => simp [(lastIndex?_eq_none c s).mp h]
  | some i =>
    have : ¬ (c ∉ s) := fun hn => by rw [(lastIndex?_eq_none c s).mpr hn] at h; cases h
    simp only [this, iff_false]
    omega

theorem LastIndex_neg (s : GoString) (c : Char) :
    LastIndex s c < 0 ↔ c ∉ s := by
  rw [← LastIndex_eq_neg_one]
  unfold LastIndex
  cases lastIndex? c s with
  | none => simp
  | some i => simp

theorem LastIndex_split (s : GoString) (c : Char) (h : c ∈ s) :
    s = sliceTo s (LastIndex s c) ++ c :: sliceFrom s (LastIndex s c + 1) ∧
      c ∉ sliceFrom s (LastIndex s c + 1) := by
  unfold LastIndex sliceTo sliceFrom
  cases hl : lastIndex? c s with
  | none => exact absurd h ((lastIndex?_eq_none c s).mp hl)
  | some i =>
    have := lastIndex?_some c s i hl
    have e : ((i : Int) + 1).toNat = i + 1 := by omega
    simp only [Int.toNat_ofNat, e]
    exact this

/-- Claim C1, evaluated on the code: for the raw reference `@sha256:abcd`
the digest branch of `parseOCILayoutReference` returns the empty path
without an error, whereas the tag branch (through `parseFileRef`) rejects
the empty path of `:v1` with an error. -/
theorem parseOCILayoutReference_digest_empty_path :
    parseOCILayoutReference "@sha256:abcd".toList = .ok ([], "sha256:abcd".toList) ∧
    parseOCILayoutReference ":v1".toList = .error (.emptyFilePath ":v1".toList) :=
  ⟨rfl, rfl⟩

/-- Claim C2: whenever `parseOCILayoutReference` succeeds, a raw string
containing `@` is split at its last `@` (the reference holds no `@`),
otherwise a raw string containing `:` is split at its last `:` (the
reference holds no `:`), otherwise the path is the raw string and the
reference is empty. -/
theorem parseOCILayoutReference_split (raw path ref : GoString)
    (h : parseOCILayoutReference raw = .ok (path, ref)) :
    ('@' ∈ raw → raw = path ++ '@' :: ref ∧ '@' ∉ ref) ∧
    ('@' ∉ raw → ':' ∈ raw → raw = path ++ ':' :: ref ∧ ':' ∉ ref) ∧
    ('@' ∉ raw → ':' ∉ raw → path = raw ∧ ref = []) := by
  unfold parseOCILayoutReference at h
  by_cases hat : '@' ∈ raw
  · have hne : LastIndex raw '@' ≠ -1 := fun e => (LastIndex_eq_neg_one raw '@').mp e hat
    simp only [hne, ne_eq, not_false_eq_true, if_true, Except.ok.injEq, Prod.mk.injEq] at h
    obtain ⟨h1, h2⟩ := h
    subst h1 h2
    exact ⟨fun _ => LastIndex_split raw '@' hat, fun hn => absurd hat hn, fun hn => absurd hat hn⟩
  · have he : LastIndex raw '@' = -1 := (LastIndex_eq_neg_one raw '@').mpr hat
    simp only [he, ne_eq, not_true_eq_false, if_false] at h
    unfold parseFileRef at h
    refine ⟨fun hn => absurd hn hat, ?_⟩
    by_cases hc : ':' ∈ raw
    · have hnn : ¬ LastIndex raw ':' < 0 := fun e => (LastIndex_neg raw ':').mp e hc
      simp only [hnn, if_false] at h
      split at h
      · cases h
      · simp only [Except.ok.injEq, Prod.mk.injEq] at h
        obtain ⟨h1, h2⟩ := h
        subst h1 h2
        exact ⟨fun _ _ => LastIndex_split raw ':' hc, fun _ hn => absurd hc hn⟩
    · have hn : LastIndex raw ':' < 0 := (LastIndex_neg raw ':').mpr hc
      simp only [hn, if_true] at h
      split at h
      · cases h
      · simp only [Except.ok.injEq, Prod.mk.injEq] at h
        obtain ⟨h1, h2⟩ := h
        subst h1 h2
        exact ⟨fun _ hn => absurd hn hc, fun _ _ => ⟨rfl, rfl⟩⟩

/-- The three examples of claim C2, the last one through the theorem. -/
theorem parseOCILayoutReference_split_witness :
    parseOCILayoutReference "/tmp/layout:v1".toList = .ok ("/tmp/layout".toList, "v1".toList) ∧
    parseOCILayoutReference "/tmp/layout".toList = .ok ("/tmp/layout".toList, []) ∧
    parseOCILayoutReference "/tmp/layout@sha256:abcd".toList
      = .ok ("/tmp/layout".toList, "sha256:abcd".toList) ∧
    ("/tmp/layout@sha256:abcd".toList = "/tmp/layout".toList ++ '@' :: "sha256:abcd".toList ∧
      '@' ∉ "sha256:abcd".toList) :=
  ⟨rfl, rfl, rfl,
    (parseOCILayoutReference_split "/tmp/layout@sha256:abcd".toList "/tmp/layout".toList
      "sha256:abcd".toList rfl).1 (by decide)⟩

/-! ### Override entries (C3, C4, C5) -/

theorem Index_neg (s : GoString) (c : Char) : Index s c < 0 ↔ c ∉ s := by
  rw [← index?_eq_none]
  unfold Index
  cases index? c s with
  | none => simp
  | some i => simp

theorem Index_split (s : GoString) (c : Char) (h : c ∈ s) :
    s = sliceTo s (Index s c) ++ c :: sliceFrom s (Index s c + 1) ∧
      c ∉ sliceTo s (Index s c) := by
  unfold Index sliceTo sliceFrom
  cases hl : index? c s with
  | none => exact absurd h ((index?_eq_none c s).mp hl)
  | some i =>
    have := index?_some c s i hl
    have e : ((i : Int) + 1).toNat = i + 1 := by omega
    simp only [Int.toNat_ofNat, e]
    exact this

theorem SplitN_succ_succ (s : GoString) (c : Char) (n : Nat) :
    SplitN s c (n + 2) = if Index s c < 0 then [s]
      else sliceTo s (Index s c) :: SplitN (sliceFrom s (Index s c + 1)) c (n + 1) := rfl

theorem SplitN_two_head (s : GoString) (c : Char) (n : Nat) :
    c ∉ (SplitN s c (n + 2)).getD 0 [] ∧
    (SplitN s c (n + 2)).tail = if Index s c < 0 then [] else
      SplitN (sliceFrom s (Index s c + 1)) c (n + 1) := by
  rw [SplitN_succ_succ]
  by_cases h : Index s c < 0
  · simp [h, (Index_neg s c).mp h]
  · have hm : c ∈ s := by
      by_contra hn
      exact h ((Index_neg s c).mpr hn)
    simp [h, (Index_split s c hm).2]

theorem getD_succ_eq_tail {α : Type} (l : List α) (i : Nat) (d : α) :
    l.getD (i + 1) d = l.tail.getD i d := by
  cases l <;> simp

theorem SplitN_four_third (s : GoString) (c : Char) :
    c ∉ (SplitN s c 4).getD 2 [] := by
  rw [getD_succ_eq_tail, (SplitN_two_head s c 2).2]
  split
  · simp
  · rw [getD_succ_eq_tail, (SplitN_two_head _ c 1).2]
    split
    · simp
    · exact (SplitN_two_head _ c 0).1

theorem ParseIPScan_no_colon (s t : GoString) (h : ':' ∉ t) :
    ParseIPScan s t = none ∨ ParseIPScan s t = parseIPv4 s := by
  induction t with
  | nil => left; rfl
  | cons ch rest ih =>
    simp only [List.mem_cons, not_or] at h
    unfold ParseIPScan
    by_cases h1 : ch = '.'
    · simp [h1]
    · have h2 : ch ≠ ':' := fun e => h.1 e.symm
      simp only [h1, h2, if_false]
      exact ih h.2

theorem parseIPv4_is_IPv4 (s : GoString) (ip : IP) (h : parseIPv4 s = some ip) :
    ∃ a b c d, ip = IPv4 a b c d := by
  unfold parseIPv4 at h
  split at h
  · simp only [Option.some.injEq] at h
    exact ⟨_, _, _, _, h.symm⟩
  · cases h

theorem ParseIP_no_colon (s : GoString) (ip : IP) (hc : ':' ∉ s) (h : ParseIP s = some ip) :
    ∃ a b c d, ip = IPv4 a b c d := by
  unfold ParseIP at h
  rcases ParseIPScan_no_colon s s hc with h0 | h0
  · rw [h0] at h; cases h
  · rw [h0] at h; exact parseIPv4_is_IPv4 s ip h

theorem parseResolveLoop_registers (flags : List GoString) (d d1 : Dialer)
    (h : parseResolveLoop d flags = .ok d1) :
    d1.entries.map some = d.entries.map some ++ flags.map overrideOf := by
  induction flags generalizing d with
  | nil =>
    simp only [parseResolveLoop, Except.ok.injEq] at h
    simp [h]
  | cons r rest ih =>
    simp only [parseResolveLoop] at h
    split at h
    · cases h
    · rename_i hlen
      split at h
      · cases h
      · rename_i hostPort hp
        split at h
        · cases h
        · rename_i address ha
          split at h
          · rename_i hgt
            split at h
            · cases h
            · rename_i addressPort hap
              have := ih _ h
              have hge : (SplitN r ':' 4).length ≥ 4 := by omega
              have ho : overrideOf r = some ⟨(SplitN r ':' 4).getD 0 [], hostPort, address,
                  addressPort⟩ := by
                unfold overrideOf
                simp only [hp, ha, hge, if_true, hap]
              rw [this, List.map_cons, ho]
              simp [Dialer.Add]
          · rename_i hgt
            have := ih _ h
            have hge : ¬ (SplitN r ':' 4).length ≥ 4 := by omega
            have ho : overrideOf r = some ⟨(SplitN r ':' 4).getD 0 [], hostPort, address,
                hostPort⟩ := by
              unfold overrideOf
              simp only [hp, ha, hge, if_false]
            rw [this, List.map_cons, ho]
            simp [Dialer.Add]


/-- The registrations of an accepted override list, entry by entry. -/
theorem parseResolve_registered_eq (flags : List GoString) (dial : DialFunc)
    (h : parseResolve flags = .ok dial) :
    dial.registered.map some = flags.map overrideOf := by
  unfold parseResolve at h
  split at h
  · rename_i h0
    simp only [Except.ok.injEq] at h
    subst h
    have : flags = [] := List.eq_nil_of_length_eq_zero h0
    simp [this, DialFunc.registered]
  · split at h
    · cases h
    · rename_i dialer hd
      simp only [Except.ok.injEq] at h
      subst h
      have := parseResolveLoop_registers flags ⟨[]⟩ dialer hd
      simpa [DialFunc.registered] using this

/-- Claim C3, evaluated on the code: `parseResolve` accepts an entry whose
second field is `-1` and registers the negative host port, and accepts the
signed form `+443`, although its own error message asks for an unsigned
port. -/
theorem parseResolve_accepts_signed_port :
    parseResolve ["example.com:-1:127.0.0.1".toList]
      = .ok (.override ⟨[⟨"example.com".toList, -1, IPv4 127 0 0 1, -1⟩]⟩) ∧
    parseResolve ["example.com:+443:127.0.0.1".toList]
      = .ok (.override ⟨[⟨"example.com".toList, 443, IPv4 127 0 0 1, 443⟩]⟩) ∧
    parseResolve ["example.com:x:127.0.0.1".toList]
      = .error (formatError "example.com:x:127.0.0.1".toList "expecting uint64 host port") :=
  ⟨rfl, rfl, rfl⟩

/-- Claim C4, evaluated on the code: `::1` is an IP literal for `ParseIP`,
yet the entry `example.com:443:::1` is split at its colons into the fields
`example.com`, `443`, the empty string and `:1`, and is rejected as an
invalid IP address. -/
theorem parseResolve_rejects_ipv6_literal :
    ParseIP "::1".toList = some [0, 0, 0, 0, 0, 0, 0, 0, 0, 0, 0, 0, 0, 0, 0, 1] ∧
    SplitN "example.com:443:::1".toList ':' 4
      = ["example.com".toList, "443".toList, [], ":1".toList] ∧
    parseResolve ["example.com:443:::1".toList]
      = .error (formatError "example.com:443:::1".toList "invalid IP address") :=
  ⟨rfl, rfl, rfl⟩

/-- Claim C5: when `parseResolve` accepts a list of override entries, the
registrations of the returned dial function are, in input order, exactly
the entries the specification prescribes (host, host port, address, and
the address port defaulting to the host port). -/
theorem parseResolve_registers (flags : List GoString) (dial : DialFunc)
    (h : parseResolve flags = .ok dial) :
    dial.registered.map some = flags.map overrideOf := by
  unfold parseResolve at h
  split at h
  · rename_i h0
    simp only [Except.ok.injEq] at h
    subst h
    have : flags = [] := List.eq_nil_of_length_eq_zero h0
    simp [this, DialFunc.registered]
  · split at h
    · cases h
    · rename_i dialer hd
      simp only [Except.ok.injEq] at h
      subst h
      have := parseResolveLoop_registers flags ⟨[]⟩ dialer hd
      simpa [DialFunc.registered] using this

/-- The two examples of claim C5, through the theorem: without a fourth
field the address port is the host port 443, with one it is 8443. -/
theorem parseResolve_registers_witness :
    parseResolve ["example.com:443:127.0.0.1".toList, "example.com:443:127.0.0.1:8443".toList]
      = .ok (.override ⟨[⟨"example.com".toList, 443, IPv4 127 0 0 1, 443⟩,
          ⟨"example.com".toList, 443, IPv4 127 0 0 1, 8443⟩]⟩) ∧
    [some (⟨"example.com".toList, 443, IPv4 127 0 0 1, 443⟩ : OverrideEntry),
     some ⟨"example.com".toList, 443, IPv4 127 0 0 1, 8443⟩]
      = ["example.com:443:127.0.0.1".toList, "example.com:443:127.0.0.1:8443".toList].map
          overrideOf :=
  ⟨rfl, parseResolve_registers
    ["example.com:443:127.0.0.1".toList, "example.com:443:127.0.0.1:8443".toList]
    (.override ⟨[⟨"example.com".toList, 443, IPv4 127 0 0 1, 443⟩,
      ⟨"example.com".toList, 443, IPv4 127 0 0 1, 8443⟩]⟩) rfl⟩

/-- No accepted override list registers an IPv6 address: the address field
never holds a colon, so every registered address is an IPv4 one. -/
theorem parseResolve_address_is_IPv4 (flags : List GoString) (dial : DialFunc)
    (h : parseResolve flags = .ok dial) (e : OverrideEntry) (he : e ∈ dial.registered) :
    ∃ a b c d, e.address = IPv4 a b c d := by
  have hm : some e ∈ dial.registered.map some := List.mem_map_of_mem some he
  rw [parseResolve_registered_eq flags dial h] at hm
  obtain ⟨r, _, hr⟩ := List.mem_map.mp hm
  unfold overrideOf at hr
  dsimp only at hr
  split at hr
  · rename_i hostPort address hp ha
    split at hr
    · simp only [Option.some.injEq] at hr
      subst hr
      exact ParseIP_no_colon _ address (SplitN_four_third r ':') ha
    · cases hr
  · cases hr

theorem parseResolveLoop_accepts_iff (flags : List GoString) (d : Dialer) :
    (∃ d1, parseResolveLoop d flags = .ok d1) ↔
      ∀ r ∈ flags, 3 ≤ (SplitN r ':' 4).length ∧ (overrideOf r).isSome = true := by
  induction flags generalizing d with
  | nil => simp [parseResolveLoop]
  | cons r rest ih =>
    simp only [List.mem_cons, forall_eq_or_imp]
    unfold parseResolveLoop overrideOf
    dsimp only
    by_cases hlen : (SplitN r ':' 4).length < 3
    · simp only [hlen, if_true]
      constructor
      · rintro ⟨d1, h⟩; cases h
      · rintro ⟨⟨h, _⟩, _⟩; omega
    · simp only [hlen, if_false]
      have h3 : 3 ≤ (SplitN r ':' 4).length := by omega
      cases hp : Atoi ((SplitN r ':' 4).getD 1 []) with
      | none => simp
      | some hostPort =>
        cases ha : ParseIP ((SplitN r ':' 4).getD 2 []) with
        | none => simp
        | some address =>
          by_cases hgt : (SplitN r ':' 4).length > 3
          · have hge : (SplitN r ':' 4).length ≥ 4 := by omega
            simp only [hgt, hge, if_true]
            cases hap : Atoi ((SplitN r ':' 4).getD 3 []) with
            | none => simp
            | some addressPort =>
              simp only [Option.isSome_some, and_true, h3, true_and]
              exact ih _
          · have hge : ¬ (SplitN r ':' 4).length ≥ 4 := by omega
            simp only [hgt, hge, if_false, Option.isSome_some, and_true, h3, true_and]
            exact ih _

/-- An override list is accepted exactly when every entry has at least
three fields and each of its fields parses. -/
theorem parseResolve_accepts_iff (flags : List GoString) :
    (∃ dial, parseResolve flags = .ok dial) ↔
      ∀ r ∈ flags, 3 ≤ (SplitN r ':' 4).length ∧ (overrideOf r).isSome = true := by
  unfold parseResolve
  by_cases h0 : flags.length = 0
  · have : flags = [] := List.eq_nil_of_length_eq_zero h0
    simp [this]
  · simp only [h0, if_false]
    rw [← parseResolveLoop_accepts_iff flags ⟨[]⟩]
    constructor
    · rintro ⟨dial, h⟩
      split at h
      · cases h
      · rename_i dialer hd
        exact ⟨dialer, hd⟩
    · rintro ⟨d1, h⟩
      rw [h]
      exact ⟨_, rfl⟩

/-! ### Paired targets (C6) -/

/-- Claim C6, evaluated on the code: with a shared slice of length 3 and
capacity 4, both `append` calls of `BinaryTarget.Parse` write into the spare
element of the shared backing array.  The source's list first becomes the
shared entries followed by its own entry, and building the destination's
list then overwrites that entry: afterwards both sides hold the shared
entries followed by the destination's entry. -/
theorem BinaryTarget_Parse_overwrites_source (grow : Nat → Nat → Nat) :
    copyOverrides.baseList = ["s1.io:443:10.0.0.1".toList, "s2.io:443:10.0.0.2".toList,
      "s3.io:443:10.0.0.3".toList] ∧
    copyOverrides.fromList = ["reg.io:443:10.0.1.1".toList] ∧
    copyOverrides.toList = ["reg.io:443:10.0.2.2".toList] ∧
    (BinaryTarget.Parse grow copyOverrides).fromList
      = copyOverrides.baseList ++ ["reg.io:443:10.0.2.2".toList] ∧
    (BinaryTarget.Parse grow copyOverrides).toList
      = copyOverrides.baseList ++ ["reg.io:443:10.0.2.2".toList] ∧
    (BinaryTarget.Parse grow copyOverrides).fromList
      ≠ copyOverrides.baseList ++ copyOverrides.fromList :=
  ⟨rfl, rfl, rfl, rfl, rfl, fun h =>
    absurd (show copyOverrides.baseList ++ ["reg.io:443:10.0.2.2".toList]
      = copyOverrides.baseList ++ copyOverrides.fromList from h) (by decide)⟩

theorem Slice_elems_length (h : Heap) (s : Slice) (hv : s.valid h) :
    (s.elems h).length = s.len := by
  unfold Slice.elems
  rcases hv with ⟨hle, h0 | ⟨_, hfit⟩⟩
  · have : s.len = 0 := by omega
    simp [this]
  · simp only [List.length_take, List.length_drop]
    omega

theorem Slice_elems_append_heap (h more : Heap) (s : Slice) (hv : s.valid h) :
    s.elems (h ++ more) = s.elems h := by
  unfold Slice.elems
  rcases hv with ⟨hle, h0 | ⟨harr, _⟩⟩
  · have : s.len = 0 := by omega
    simp [this]
  · simp [List.getD_eq_getElem?_getD, List.getElem?_append_left harr]

theorem Slice_elems_fresh (h more : Heap) (l : List GoString) (n c : Nat) :
    Slice.elems (h ++ [l] ++ more) { arr := h.length, off := 0, len := n, cap := c }
      = l.take n := by
  have hget : ∀ (h : Heap), (h ++ l :: more).getD h.length [] = l := by
    intro h
    induction h with
    | nil => rfl
    | cons a rest ih => simpa using ih
  unfold Slice.elems
  simp only [List.append_assoc, List.singleton_append, hget, List.drop_zero]

theorem Heap_set_getD_self (h : Heap) (i : Nat) : h.set i (h.getD i []) = h := by
  induction h generalizing i with
  | nil => simp
  | cons a rest ih =>
    cases i with
    | zero => simp
    | succ j =>
      have := ih j
      simp only [List.getD_eq_getElem?_getD] at this
      simp [this]

theorem goAppend_nothing (grow : Nat → Nat → Nat) (h : Heap) (s : Slice) (hle : s.len ≤ s.cap) :
    goAppend grow h s [] = (h, s) := by
  unfold goAppend
  have e : s.len + ([] : List GoString).length ≤ s.cap := by simpa using hle
  simp only [List.append_nil, List.length_nil, Nat.add_zero, List.take_append_drop,
    Heap_set_getD_self, hle, if_true]

theorem take_append_exact {α : Type} (l1 l2 l3 : List α) (n : Nat)
    (h : n = l1.length + l2.length) : (l1 ++ l2 ++ l3).take n = l1 ++ l2 := by
  subst h
  rw [← List.length_append]
  exact List.take_left' rfl

theorem Slice_valid_append_heap (h more : Heap) (s : Slice) (hv : s.valid h) :
    s.valid (h ++ more) := by
  rcases hv with ⟨h1, h2 | ⟨h2, h3⟩⟩
  · exact ⟨h1, Or.inl h2⟩
  · refine ⟨h1, Or.inr ⟨by simp; omega, ?_⟩⟩
    simpa [List.getD_eq_getElem?_getD, List.getElem?_append_left h2] using h3

theorem goAppend_full (grow : Nat → Nat → Nat) (h : Heap) (s : Slice) (vals : List GoString)
    (hv : s.valid h) (hfull : s.cap = s.len) (hne : vals ≠ []) :
    ∃ a, (goAppend grow h s vals).1 = h ++ [a] ∧
      ∀ more, (goAppend grow h s vals).2.elems (h ++ [a] ++ more) = s.elems h ++ vals := by
  unfold goAppend
  have hpos : 0 < vals.length := List.length_pos.mpr hne
  have hgt : ¬ (s.len + vals.length ≤ s.cap) := by omega
  simp only [hgt, if_false]
  refine ⟨_, rfl, fun more => ?_⟩
  rw [Slice_elems_fresh]
  exact take_append_exact _ _ _ _ (by rw [Slice_elems_length h s hv])

/-- When the shared slice has no spare capacity, `BinaryTarget.Parse` leaves
the source with the shared entries followed by its own, the destination
with the shared entries followed by its own, and the shared list as it
was. -/
theorem BinaryTarget_Parse_without_spare_capacity (grow : Nat → Nat → Nat)
    (opts : BinaryTarget) (hB : opts.resolveFlag.valid opts.heap)
    (hT : opts.toResolveFlag.valid opts.heap)
    (hfull : opts.resolveFlag.cap = opts.resolveFlag.len) :
    (BinaryTarget.Parse grow opts).fromList = opts.baseList ++ opts.fromList ∧
    (BinaryTarget.Parse grow opts).toList = opts.baseList ++ opts.toList ∧
    (BinaryTarget.Parse grow opts).baseList = opts.baseList := by
  unfold BinaryTarget.Parse BinaryTarget.fromList BinaryTarget.toList BinaryTarget.baseList
  dsimp only
  by_cases hF : opts.fromResolveFlag.elems opts.heap = []
  · rw [hF, goAppend_nothing grow _ _ hB.1]
    dsimp only
    by_cases hTn : opts.toResolveFlag.elems opts.heap = []
    · rw [hTn, goAppend_nothing grow _ _ hB.1]
      simp
    · obtain ⟨b, hb1, hb2⟩ := goAppend_full grow _ _ _ hB hfull hTn
      rw [hb1]
      refine ⟨?_, ?_, Slice_elems_append_heap _ _ _ hB⟩
      · rw [Slice_elems_append_heap _ _ _ hB]; simp
      · simpa using hb2 []
  · obtain ⟨a, ha1, ha2⟩ := goAppend_full grow _ _ _ hB hfull hF
    have hB1 := Slice_elems_append_heap opts.heap [a] opts.resolveFlag hB
    rw [ha1, Slice_elems_append_heap opts.heap [a] opts.toResolveFlag hT]
    by_cases hTn : opts.toResolveFlag.elems opts.heap = []
    · rw [hTn, goAppend_nothing grow _ _ hB.1]
      dsimp only
      refine ⟨by simpa using ha2 [], by simpa using hB1, hB1⟩
    · obtain ⟨b, hb1, hb2⟩ :=
        goAppend_full grow _ _ _ (Slice_valid_append_heap opts.heap [a] _ hB) hfull hTn
      rw [hb1]
      refine ⟨ha2 [b], ?_, ?_⟩
      · rw [← hB1]; simpa using hb2 []
      · rw [Slice_elems_append_heap _ _ _ (Slice_valid_append_heap opts.heap [a] _ hB), hB1]

/-- The statement above on a concrete heap: three shared entries in a slice
of capacity 3, one entry on each side. -/
theorem BinaryTarget_Parse_without_spare_capacity_example (grow : Nat → Nat → Nat) :
    (BinaryTarget.Parse grow { copyOverrides with resolveFlag := ⟨0, 0, 3, 3⟩ }).fromList
      = copyOverrides.baseList ++ copyOverrides.fromList ∧
    (BinaryTarget.Parse grow { copyOverrides with resolveFlag := ⟨0, 0, 3, 3⟩ }).toList
      = copyOverrides.baseList ++ copyOverrides.toList :=
  ⟨(BinaryTarget_Parse_without_spare_capacity grow
      { copyOverrides with resolveFlag := ⟨0, 0, 3, 3⟩ }
      ⟨by decide, Or.inr ⟨by decide, by decide⟩⟩ ⟨by decide, Or.inr ⟨by decide, by decide⟩⟩
      rfl).1,
   (BinaryTarget_Parse_without_spare_capacity grow
      { copyOverrides with resolveFlag := ⟨0, 0, 3, 3⟩ }
      ⟨by decide, Or.inr ⟨by decide, by decide⟩⟩ ⟨by decide, Or.inr ⟨by decide, by decide⟩⟩
      rfl).2.1⟩

/-! ### Plain HTTP policy (C7) -/

theorem SplitHostPort_error_host (r : GoString) (e : AddrError)
    (h : (SplitHostPort r).2.2 = some e) : (SplitHostPort r).1 = [] := by
  unfold SplitHostPort at h ⊢
  dsimp only at h ⊢
  split
  · rfl
  · rename_i hi
    simp only [hi, if_false] at h
    split
    · rfl
    · rename_i host j k hs
      simp only [hs] at h
      split
      · rfl
      · rename_i h1
        simp only [h1, if_false] at h
        split
        · rfl
        · rename_i h2
          simp only [h2, if_false] at h
          cases h

theorem isPlainHttp_eq (opts : Remote) (registry : GoString) :
    opts.isPlainHttp registry =
      (if (opts.plainHTTP ()).2 then (opts.plainHTTP ()).1
       else if hostWithoutPort registry = "localhost".toList then true
       else (opts.plainHTTP ()).1) := by
  unfold Remote.isPlainHttp
  dsimp only
  by_cases henf : (opts.plainHTTP ()).2 = true
  · simp only [henf, if_true]
  · simp only [henf, if_false]
    unfold hostWithoutPort
    rcases hs : SplitHostPort registry with ⟨host, port, err⟩
    cases err with
    | none =>
      have hne : registry ≠ "localhost".toList := by
        intro he
        rw [he] at hs
        have : (SplitHostPort "localhost".toList).2.2 = none := by rw [hs]
        exact absurd this (by decide)
      simp at hne
      simp [hne]
    | some e =>
      have : (SplitHostPort registry).1 = [] := SplitHostPort_error_host registry e (by rw [hs])
      rw [hs] at this
      simp only at this
      subst this
      simp

theorem drop_eq_cons_of_split {α : Type} (l : List α) (n : Nat) (a : α) (rest : List α)
    (h : l = l.take n ++ a :: rest) : l.drop n = a :: rest := by
  have h2 : l.take n ++ l.drop n = l.take n ++ a :: rest := by
    rw [List.take_append_drop]; exact h
  exact List.append_cancel_left h2

theorem SplitHostPort_ok (r host port : GoString)
    (h : SplitHostPort r = (host, port, none)) :
    ':' ∉ port ∧ '[' ∉ port ∧ ']' ∉ port ∧
      (r = host ++ ':' :: port ∨ r = '[' :: (host ++ ']' :: ':' :: port)) := by
  unfold SplitHostPort at h
  dsimp only at h
  split at h
  · simp at h
  · rename_i hi
    have hmem : ':' ∈ r := by
      by_contra hn
      exact hi ((LastIndex_neg r ':').mpr hn)
    obtain ⟨hsplit, hport⟩ := LastIndex_split r ':' hmem
    split at h
    · simp at h
    · rename_i host1 j k hs
      split at h
      · simp at h
      · rename_i hopen
        split at h
        · simp at h
        · rename_i hclose
          simp only [Prod.mk.injEq, and_true] at h
          obtain ⟨hh, hp⟩ := h
          subst hh hp
          have ho : '[' ∉ r.drop j := (Index_neg _ _).mp (by omega)
          have hc : ']' ∉ r.drop k := (Index_neg _ _).mp (by omega)
          unfold splitHost at hs
          dsimp only at hs
          split at hs
          · rename_i hhead
            split at hs
            · cases hs
            · rename_i he
              split at hs
              · cases hs
              · split at hs
                · rename_i hei
                  simp only [Except.ok.injEq, Prod.mk.injEq] at hs
                  obtain ⟨h1, h2, h3⟩ := hs
                  subst h1 h2 h3
                  have hmemc : ']' ∈ r := by
                    by_contra hn
                    exact he ((Index_neg r ']').mpr hn)
                  obtain ⟨hsplit2, _⟩ := Index_split r ']' hmemc
                  rw [← hei] at hsplit hport ⊢
                  -- pass to natural-number positions
                  unfold Index at hsplit hsplit2 hport hc he ⊢
                  cases hx : index? ']' r with
                  | none => rw [hx] at he; simp at he
                  | some E =>
                    rw [hx] at hsplit hsplit2 hport hc
                    simp only [sliceTo, sliceFrom, Int.toNat_ofNat] at hsplit hsplit2 hport ⊢
                    have e1 : ((E : Int) + 1).toNat = E + 1 := by omega
                    have e2 : ((E : Int) + 1 + 1).toNat = E + 2 := by omega
                    have e3 : ((E : Int) - 1).toNat = E - 1 := by omega
                    rw [e1] at hsplit hsplit2 hc
                    rw [e2] at hsplit hport
                    rw [e2, e3]
                    have hd1 : r.drop (E + 1) = ':' :: r.drop (E + 2) :=
                      drop_eq_cons_of_split r (E + 1) ':' _ hsplit
                    rw [hd1] at hsplit2 hc
                    cases r with
                    | nil => simp at hhead
                    | cons x t =>
                      simp only [List.head?_cons, Option.some.injEq] at hhead
                      subst hhead
                      cases E with
                      | zero => simp at hsplit2
                      | succ E1 =>
                        simp only [List.take_succ_cons, List.drop_succ_cons, List.cons_append,
                          List.cons.injEq, true_and] at hsplit2
                        simp only [List.drop_succ_cons, List.drop_zero] at ho
                        simp only [List.mem_cons, not_or] at hc
                        refine ⟨hport, ?_, hc.2, Or.inr ?_⟩
                        · exact fun hm => ho (List.mem_of_mem_drop hm)
                        · simp only [List.drop_succ_cons, List.drop_zero, Nat.add_sub_cancel,
                            List.cons.injEq, true_and]
                          simpa using hsplit2
                · split at hs <;> cases hs
          · split at hs
            · cases hs
            · simp only [Except.ok.injEq, Prod.mk.injEq] at hs
              obtain ⟨h1, h2, h3⟩ := hs
              subst h1 h2 h3
              simp only [List.drop_zero] at ho hc
              refine ⟨hport, ?_, ?_, Or.inl hsplit⟩
              · exact fun hm => ho (List.mem_of_mem_drop hm)
              · exact fun hm => hc (List.mem_of_mem_drop hm)

theorem lastIndex?_append_sep (c : Char) (pre rest : GoString) (h : c ∉ rest) :
    lastIndex? c (pre ++ c :: rest) = some pre.length := by
  induction pre with
  | nil => simp [lastIndex?, (lastIndex?_eq_none c rest).mpr h]
  | cons x xs ih => simp [lastIndex?, ih]

theorem index?_append_sep (c : Char) (pre rest : GoString) (h : c ∉ pre) :
    index? c (pre ++ c :: rest) = some pre.length := by
  induction pre with
  | nil => simp [index?]
  | cons x xs ih =>
    simp only [List.mem_cons, not_or] at h
    have hx : x ≠ c := fun e => h.1 e.symm
    simp [index?, hx, ih h.2]

theorem Index_of_not_mem (s : GoString) (c : Char) (h : c ∉ s) : Index s c = -1 := by
  unfold Index
  rw [(index?_eq_none c s).mpr h]

theorem SplitHostPort_localhost_port (port : GoString)
    (h : ':' ∉ port) (ho : '[' ∉ port) (hc : ']' ∉ port) :
    SplitHostPort ("localhost:".toList ++ port) = ("localhost".toList, port, none) := by
  have hL : LastIndex ("localhost:".toList ++ port) ':' = 9 := by
    unfold LastIndex
    rw [show "localhost:".toList ++ port = "localhost".toList ++ ':' :: port from rfl,
      lastIndex?_append_sep _ _ _ h]
    rfl
  have hT : sliceTo ("localhost:".toList ++ port) 9 = "localhost".toList := rfl
  have hI1 : Index "localhost".toList ':' = -1 := rfl
  have hI2 : Index (List.drop 0 ("localhost:".toList ++ port)) '[' = -1 :=
    Index_of_not_mem _ _ (by simp [ho])
  have hI3 : Index (List.drop 0 ("localhost:".toList ++ port)) ']' = -1 :=
    Index_of_not_mem _ _ (by simp [hc])
  have hs : splitHost ("localhost:".toList ++ port) 9 = .ok ("localhost".toList, 0, 0) := by
    unfold splitHost
    dsimp only
    rw [hT, hI1]
    simp
  unfold SplitHostPort
  simp only [hL, hs, hI2, hI3]
  rfl

theorem SplitHostPort_bracket_localhost_port (port : GoString)
    (h : ':' ∉ port) (ho : '[' ∉ port) (hc : ']' ∉ port) :
    SplitHostPort ("[localhost]:".toList ++ port) = ("localhost".toList, port, none) := by
  have hL : LastIndex ("[localhost]:".toList ++ port) ':' = 11 := by
    unfold LastIndex
    rw [show "[localhost]:".toList ++ port = "[localhost]".toList ++ ':' :: port from rfl,
      lastIndex?_append_sep _ _ _ h]
    rfl
  have hI1 : Index ("[localhost]:".toList ++ port) ']' = 10 := by
    unfold Index
    rw [show "[localhost]:".toList ++ port = "[localhost".toList ++ ']' :: (':' :: port) from rfl,
      index?_append_sep _ _ _ (by decide)]
    rfl
  have hI2 : Index (List.drop 1 ("[localhost]:".toList ++ port)) '[' = -1 :=
    Index_of_not_mem _ _ (by simp [ho])
  have hI3 : Index (List.drop 11 ("[localhost]:".toList ++ port)) ']' = -1 :=
    Index_of_not_mem _ _ (by simp [hc])
  have hs : splitHost ("[localhost]:".toList ++ port) 11 = .ok ("localhost".toList, 1, 11) := by
    unfold splitHost
    rw [hI1]
    simp [sliceTo, sliceFrom]
    omega
  unfold SplitHostPort
  simp only [hL, hs, hI2, hI3]
  rfl

/-- The registries whose host with any port stripped is `localhost`:
`localhost` itself, `localhost:<port>` and `[localhost]:<port>`, for a port
without colon or bracket. -/
theorem hostWithoutPort_localhost_iff (r : GoString) :
    hostWithoutPort r = "localhost".toList ↔
      r = "localhost".toList ∨
      ∃ port, ':' ∉ port ∧ '[' ∉ port ∧ ']' ∉ port ∧
        (r = "localhost:".toList ++ port ∨ r = "[localhost]:".toList ++ port) := by
  constructor
  · intro h
    unfold hostWithoutPort at h
    rcases hs : SplitHostPort r with ⟨host, port, err⟩
    rw [hs] at h
    cases err with
    | some e => exact Or.inl h
    | none =>
      simp only at h
      subst h
      obtain ⟨h1, h2, h3, h4⟩ := SplitHostPort_ok r _ port hs
      right
      refine ⟨port, h1, h2, h3, ?_⟩
      rcases h4 with h4 | h4
      · left; rw [h4]; rfl
      · right; rw [h4]; rfl
  · rintro (h | ⟨port, h1, h2, h3, h4 | h4⟩)
    · subst h; rfl
    · subst h4
      unfold hostWithoutPort
      rw [SplitHostPort_localhost_port port h1 h2 h3]
    · subst h4
      unfold hostWithoutPort
      rw [SplitHostPort_bracket_localhost_port port h1 h2 h3]

/-- Claim C7: with `(explicitFlag, enforced)` the pair returned by the
Remote's `plainHTTP` function, `isPlainHttp` returns `explicitFlag` when
`enforced` is true; otherwise it returns true when the registry's host with
any port stripped is literally `localhost`, and `explicitFlag` otherwise.
The second part spells out which registries have the host `localhost`. -/
theorem isPlainHttp_spec (opts : Remote) (registry : GoString) (explicitFlag enforced : Bool) :
    ({ opts with plainHTTP := fun _ => (explicitFlag, enforced) } : Remote).isPlainHttp registry
      = (if enforced then explicitFlag
         else if hostWithoutPort registry = "localhost".toList then true
         else explicitFlag) ∧
    (hostWithoutPort registry = "localhost".toList ↔
      registry = "localhost".toList ∨
      ∃ port, ':' ∉ port ∧ '[' ∉ port ∧ ']' ∉ port ∧
        (registry = "localhost:".toList ++ port ∨ registry = "[localhost]:".toList ++ port)) :=
  ⟨isPlainHttp_eq _ registry, hostWithoutPort_localhost_iff registry⟩

/-- The three examples of claim C7, on Remotes built by `NewRemote`, through
the theorem. -/
theorem isPlainHttp_spec_witness :
    (NewRemote false [] []).isPlainHttp "localhost".toList = true ∧
    (NewRemote false [] []).isPlainHttp "registry.example.com".toList = false ∧
    (NewRemote true [] []).isPlainHttp "registry.example.com".toList = true ∧
    (NewRemote false [] []).isPlainHttp "localhost:5000".toList = true :=
  ⟨(isPlainHttp_spec (NewRemote false [] []) "localhost".toList false false).1,
   (isPlainHttp_spec (NewRemote false [] []) "registry.example.com".toList false false).1,
   (isPlainHttp_spec (NewRemote true [] []) "registry.example.com".toList true true).1,
   (isPlainHttp_spec (NewRemote false [] []) "localhost:5000".toList false false).1⟩

/-! ### Credentials (C8) -/

theorem Credential_ne_empty_iff (username password : GoString) :
    credential.Credential username password ≠ auth.EmptyCredential ↔
      (username ≠ [] ∨ password ≠ []) := by
  unfold credential.Credential auth.EmptyCredential
  by_cases hu : username = []
  · simp [hu]
  · simp [hu]

/-- Claim C8: `credential.Credential` returns the refresh token `password`
when the username is empty and the username/password pair otherwise; the
result differs from the empty credential exactly when the username or the
password is non-empty.  In that case `authClient` installs the constant
lookup of this credential, whatever the config paths and the credential
stores are (its outcome depends on the override entries only); when both
are empty it installs the lookup of the store built from the config paths. -/
theorem authClient_credential {S : Type} (env : credential.StoreOpener S) (opts : Remote)
    (registry : GoString) (debug : Bool) :
    (opts.Username = [] → credential.Credential opts.Username opts.Password
      = { Username := [], Password := [], RefreshToken := opts.Password, AccessToken := [] }) ∧
    (opts.Username ≠ [] → credential.Credential opts.Username opts.Password
      = { Username := opts.Username, Password := opts.Password, RefreshToken := [],
          AccessToken := [] }) ∧
    (credential.Credential opts.Username opts.Password ≠ auth.EmptyCredential ↔
      (opts.Username ≠ [] ∨ opts.Password ≠ [])) ∧
    ((opts.Username ≠ [] ∨ opts.Password ≠ []) →
      (opts.authClient env registry debug).map (fun client => client.Credential)
        = (parseResolve opts.resolveFlag).map
            (fun _ => .const (credential.Credential opts.Username opts.Password))) ∧
    ((opts.Username = [] ∧ opts.Password = []) →
      (opts.authClient env registry debug).map (fun client => client.Credential)
        = (parseResolve opts.resolveFlag).bind
            (fun _ => (credential.NewStore env opts.Configs).map .ofStore)) ∧
    (∀ (query : credential.Store S → GoString → auth.Credential) (r : GoString),
      (CredentialFunc.const (credential.Credential opts.Username opts.Password)
        : CredentialFunc S).lookup query r
        = credential.Credential opts.Username opts.Password) := by
  refine ⟨?_, ?_, Credential_ne_empty_iff _ _, ?_, ?_, fun _ _ => rfl⟩
  · intro hu
    simp [credential.Credential, hu]
  · intro hu
    simp [credential.Credential, hu]
  · intro h
    have hne := (Credential_ne_empty_iff opts.Username opts.Password).mpr h
    unfold Remote.authClient
    dsimp only
    cases parseResolve opts.resolveFlag with
    | error e => rfl
    | ok dial =>
      simp only [Remote.Credential, hne, ne_eq, not_false_eq_true, if_true]
      rfl
  · intro h
    have hne : ¬ (credential.Credential opts.Username opts.Password ≠ auth.EmptyCredential) :=
      fun hc => by
        rcases (Credential_ne_empty_iff opts.Username opts.Password).mp hc with h1 | h1
        · exact h1 h.1
        · exact h1 h.2
    unfold Remote.authClient
    dsimp only
    cases parseResolve opts.resolveFlag with
    | error e => rfl
    | ok dial =>
      simp only [Remote.Credential, hne, if_false]
      cases credential.NewStore env opts.Configs with
      | error e => rfl
      | ok store => rfl

/-- Claim C8 on concrete inputs, through the theorem: a password alone
gives a refresh token and the constant lookup, even though a config path
is set and no store opens. -/
theorem authClient_credential_witness :
    credential.Credential [] "tok".toList = ⟨[], [], "tok".toList, []⟩ ∧
    credential.Credential "bob".toList "pw".toList = ⟨"bob".toList, "pw".toList, [], []⟩ ∧
    (({ NewRemote false [] "tok".toList with Configs := ["/cfg.json".toList] } : Remote).authClient
        (⟨.error (.store []), fun _ => .error (.store [])⟩ : credential.StoreOpener Unit)
        "reg.io".toList false).map (fun client => client.Credential)
      = .ok (.const ⟨[], [], "tok".toList, []⟩) :=
  ⟨rfl, rfl,
    (authClient_credential (⟨.error (.store []), fun _ => .error (.store [])⟩ :
        credential.StoreOpener Unit)
      ({ NewRemote false [] "tok".toList with Configs := ["/cfg.json".toList] } : Remote)
      "reg.io".toList false).2.2.2.1 (Or.inr (by decide))⟩

/-! ### Distribution spec (C9) -/

/-- Claim C9: `DistributionSpec.Parse` succeeds exactly on the flags `""`,
`v1.1-referrers-api` and `v1.1-referrers-tag`, setting `ReferrersAPI` to
nil, true and false respectively; on every other flag it returns the
unknown-flag error and leaves the receiver unchanged. -/
theorem DistributionSpec_Parse_spec (opts : DistributionSpec) :
    ((opts.Parse).2 = none ↔
      (opts.specFlag = [] ∨ opts.specFlag = "v1.1-referrers-api".toList ∨
        opts.specFlag = "v1.1-referrers-tag".toList)) ∧
    (opts.specFlag = [] → opts.Parse = ({ opts with ReferrersAPI := none }, none)) ∧
    (opts.specFlag = "v1.1-referrers-api".toList →
      opts.Parse = ({ opts with ReferrersAPI := some true }, none)) ∧
    (opts.specFlag = "v1.1-referrers-tag".toList →
      opts.Parse = ({ opts with ReferrersAPI := some false }, none)) ∧
    ((opts.Parse).2 ≠ none → opts.Parse = (opts, some (.unknownSpecFlag opts.specFlag))) := by
  unfold DistributionSpec.Parse
  by_cases h1 : opts.specFlag = []
  · simp [h1]
  · by_cases h2 : opts.specFlag = "v1.1-referrers-tag".toList
    · simp [h2]
    · by_cases h3 : opts.specFlag = "v1.1-referrers-api".toList
      · simp [h3]
      · simp only [h1, h2, h3, if_false]
        simp

/-- Claim C9 on concrete inputs, through the theorem: the three accepted
flags, and `garbage`, which is rejected without touching `ReferrersAPI`. -/
theorem DistributionSpec_Parse_spec_witness :
    (DistributionSpec.Parse ⟨some true, []⟩) = (⟨none, []⟩, none) ∧
    (DistributionSpec.Parse ⟨none, "v1.1-referrers-api".toList⟩)
      = (⟨some true, "v1.1-referrers-api".toList⟩, none) ∧
    (DistributionSpec.Parse ⟨none, "v1.1-referrers-tag".toList⟩)
      = (⟨some false, "v1.1-referrers-tag".toList⟩, none) ∧
    (DistributionSpec.Parse ⟨some true, "garbage".toList⟩)
      = (⟨some true, "garbage".toList⟩, some (.unknownSpecFlag "garbage".toList)) :=
  ⟨(DistributionSpec_Parse_spec ⟨some true, []⟩).2.1 rfl,
   (DistributionSpec_Parse_spec ⟨none, "v1.1-referrers-api".toList⟩).2.2.1 rfl,
   (DistributionSpec_Parse_spec ⟨none, "v1.1-referrers-tag".toList⟩).2.2.2.1 rfl,
   (DistributionSpec_Parse_spec ⟨some true, "garbage".toList⟩).2.2.2.2 (by decide)⟩

/-! ### Custom headers (C10) -/

theorem index?_takeWhile (c : Char) (s : GoString) (i : Nat) (h : index? c s = some i) :
    s.take i = s.takeWhile (fun ch => ch ≠ c) ∧
      s.drop (i + 1) = (s.dropWhile (fun ch => ch ≠ c)).tail := by
  induction s generalizing i with
  | nil => simp [index?] at h
  | cons x xs ih =>
    simp only [index?] at h
    by_cases hxc : x = c
    · simp [hxc] at h
      subst h
      simp [hxc, List.takeWhile, List.dropWhile]
    · simp only [hxc, if_false] at h
      cases hl : index? c xs with
      | none => rw [hl] at h; simp at h
      | some k =>
        rw [hl] at h
        simp at h
        subst h
        have := ih k hl
        simp [List.takeWhile, List.dropWhile, hxc, this.1, this.2]

theorem Cut_colon (h : GoString) :
    Cut h ':' = if ':' ∈ h then (headerName h, headerValue h, true) else (h, [], false) := by
  unfold Cut Index
  dsimp only
  cases hl : index? ':' h with
  | none =>
    have := (index?_eq_none ':' h).mp hl
    simp [this]
  | some i =>
    have hm : ':' ∈ h := by
      by_contra hn
      rw [(index?_eq_none ':' h).mpr hn] at hl
      cases hl
    have := index?_takeWhile ':' h i hl
    have e : ((i : Int) + 1).toNat = i + 1 := by omega
    simp [hm, sliceTo, sliceFrom, e, headerName, headerValue, this.1, this.2]

theorem Header_get_set_same (h : Header) (k : GoString) (v : List GoString) :
    (h.set k v).get k = v := by
  induction h with
  | nil => simp [Header.set, Header.get]
  | cons p rest ih =>
    obtain ⟨k1, v1⟩ := p
    by_cases hk : k1 = k
    · simp [Header.set, Header.get, hk]
    · simp [Header.set, Header.get, hk, ih]

theorem Header_get_set_other (h : Header) (k k2 : GoString) (v : List GoString) (hne : k ≠ k2) :
    (h.set k v).get k2 = h.get k2 := by
  induction h with
  | nil => simp [Header.set, Header.get, hne]
  | cons p rest ih =>
    obtain ⟨k1, v1⟩ := p
    by_cases hk : k1 = k
    · subst hk
      simp [Header.set, Header.get, hne]
    · by_cases hk2 : k1 = k2
      · subst hk2
        simp [Header.set, Header.get, hk]
      · simp [Header.set, Header.get, hk, hk2, ih]

theorem parseCustomHeadersLoop_error (flags : List GoString) (headers : Header)
    (h : ∃ f ∈ flags, malformedHeader f = true) :
    ∃ e, parseCustomHeadersLoop headers flags = .error e := by
  induction flags generalizing headers with
  | nil => simp at h
  | cons f rest ih =>
    unfold parseCustomHeadersLoop
    dsimp only
    by_cases hb : malformedHeader f = true
    · refine ⟨.invalidHeader f, ?_⟩
      rw [Cut_colon]
      unfold malformedHeader at hb
      by_cases hm : ':' ∈ f
      · simp [hm] at hb ⊢
        simp [hb]
      · simp [hm]
    · have hrest : ∃ g ∈ rest, malformedHeader g = true := by
        obtain ⟨g, hg, hgb⟩ := h
        rcases List.mem_cons.mp hg with e | e
        · subst e; exact absurd hgb hb
        · exact ⟨g, e, hgb⟩
      rw [Cut_colon]
      unfold malformedHeader at hb
      by_cases hm : ':' ∈ f
      · simp [hm] at hb ⊢
        simp [hb]
        exact ih _ hrest
      · simp [hm] at hb

theorem parseCustomHeadersLoop_ok (flags : List GoString) (headers : Header)
    (h : ∀ f ∈ flags, malformedHeader f = false) :
    ∃ result, parseCustomHeadersLoop headers flags = .ok result ∧
      ∀ name, result.get name
        = headers.get name ++ (flags.filter (fun f => headerName f = name)).map headerValue := by
  induction flags generalizing headers with
  | nil => exact ⟨headers, rfl, fun name => by simp⟩
  | cons f rest ih =>
    have hf := h f (List.mem_cons_self _ _)
    have hrest : ∀ g ∈ rest, malformedHeader g = false :=
      fun g hg => h g (List.mem_cons_of_mem _ hg)
    unfold malformedHeader at hf
    have hm : ':' ∈ f := by
      by_contra hn
      simp [hn] at hf
    simp [hm] at hf
    obtain ⟨result, hres, hget⟩ :=
      ih (headers.set (headerName f) (headers.get (headerName f) ++ [headerValue f])) hrest
    refine ⟨result, ?_, ?_⟩
    · unfold parseCustomHeadersLoop
      dsimp only
      rw [Cut_colon]
      simp [hm, hf]
      exact hres
    · intro name
      rw [hget name]
      by_cases hn : headerName f = name
      · subst hn
        simp [Header_get_set_same, List.filter_cons]
      · simp [Header_get_set_other _ _ _ _ hn, List.filter_cons, hn]

theorem malformedHeader_iff (f : GoString) :
    malformedHeader f = true ↔ (':' ∉ f ∨ TrimSpace (headerName f) = []) := by
  unfold malformedHeader
  simp

/-- Claim C10: `parseCustomHeaders` fails exactly when some header flag has
no colon or has a name (the text before its first colon) that is empty
after trimming white space; when it succeeds on a Remote whose header map
was not set before, the header map holds under each name exactly the
values of the flags with that name, in input order. -/
theorem parseCustomHeaders_spec (opts : Remote) (h0 : opts.headers = []) :
    ((opts.parseCustomHeaders).2 ≠ none ↔
      ∃ f ∈ opts.headerFlags, ':' ∉ f ∨ TrimSpace (headerName f) = []) ∧
    ((opts.parseCustomHeaders).2 = none →
      ∀ name, (opts.parseCustomHeaders).1.headers.get name
        = (opts.headerFlags.filter (fun f => headerName f = name)).map headerValue) := by
  by_cases hbad : ∃ f ∈ opts.headerFlags, malformedHeader f = true
  · have hbad2 : ∃ f ∈ opts.headerFlags, ':' ∉ f ∨ TrimSpace (headerName f) = [] := by
      obtain ⟨f, hf, hb⟩ := hbad
      exact ⟨f, hf, (malformedHeader_iff f).mp hb⟩
    obtain ⟨e, he⟩ := parseCustomHeadersLoop_error opts.headerFlags [] hbad
    have hlen : opts.headerFlags.length ≠ 0 := by
      obtain ⟨f, hf, _⟩ := hbad
      intro h
      rw [List.eq_nil_of_length_eq_zero h] at hf
      simp at hf
    have hres : opts.parseCustomHeaders = (opts, some e) := by
      unfold Remote.parseCustomHeaders
      simp only [hlen, ne_eq, not_false_eq_true, if_true, he]
    rw [hres]
    simp only [ne_eq, reduceCtorEq, not_false_eq_true, true_iff, false_implies, and_true]
    exact hbad2
  · have hgood : ∀ f ∈ opts.headerFlags, malformedHeader f = false := by
      intro f hf
      by_contra hb
      exact hbad ⟨f, hf, by simpa using hb⟩
    have hbad2 : ¬ ∃ f ∈ opts.headerFlags, ':' ∉ f ∨ TrimSpace (headerName f) = [] := by
      rintro ⟨f, hf, hb⟩
      exact hbad ⟨f, hf, (malformedHeader_iff f).mpr hb⟩
    obtain ⟨result, hres, hget⟩ := parseCustomHeadersLoop_ok opts.headerFlags [] hgood
    by_cases hlen : opts.headerFlags.length = 0
    · have hnil : opts.headerFlags = [] := List.eq_nil_of_length_eq_zero hlen
      have hr : opts.parseCustomHeaders = (opts, none) := by
        unfold Remote.parseCustomHeaders
        simp [hlen]
      rw [hr]
      refine ⟨by simp [hnil], fun _ name => ?_⟩
      simp [h0, hnil, Header.get]
    · have hr : opts.parseCustomHeaders = ({ opts with headers := result }, none) := by
        unfold Remote.parseCustomHeaders
        simp only [hlen, ne_eq, not_false_eq_true, if_true, hres]
      rw [hr]
      refine ⟨by simpa using hbad2, fun _ name => ?_⟩
      simpa [Header.get] using hget name

/-- The examples of claim C10, through the theorem: `X-Foo:bar` followed by
`X-Foo:baz` yields `bar`, `baz` under `X-Foo`, and `:value` is rejected. -/
theorem parseCustomHeaders_spec_witness :
    (({ NewRemote false [] [] with
        headerFlags := ["X-Foo:bar".toList, "X-Foo:baz".toList] } : Remote).parseCustomHeaders
      ).1.headers.get "X-Foo".toList = ["bar".toList, "baz".toList] ∧
    (({ NewRemote false [] [] with
        headerFlags := [":value".toList] } : Remote).parseCustomHeaders).2 ≠ none :=
  ⟨(parseCustomHeaders_spec ({ NewRemote false [] [] with
        headerFlags := ["X-Foo:bar".toList, "X-Foo:baz".toList] } : Remote) rfl).2 rfl
      "X-Foo".toList,
   (parseCustomHeaders_spec ({ NewRemote false [] [] with
        headerFlags := [":value".toList] } : Remote) rfl).1.mpr
      ⟨":value".toList, List.mem_singleton.mpr rfl, Or.inr rfl⟩⟩

/-! ### Platform (C11) -/

theorem Index_cons_ne (x c : Char) (xs : GoString) (h : x ≠ c) :
    Index (x :: xs) c = if Index xs c < 0 then -1 else Index xs c + 1 := by
  unfold Index
  simp only [index?, h, if_false]
  cases index? c xs with
  | none => simp
  | some i =>
    have : ¬ ((i : Int) < 0) := by omega
    simp [this]

theorem SplitN_cons_ne (x c : Char) (xs : GoString) (n : Nat) (h : x ≠ c) :
    SplitN (x :: xs) c (n + 1) = (SplitN xs c (n + 1)).modifyHead (List.cons x) := by
  cases n with
  | zero => rfl
  | succ m =>
    rw [SplitN_succ_succ, SplitN_succ_succ, Index_cons_ne x c xs h]
    by_cases hi : Index xs c < 0
    · simp [hi]
    · have hn : ¬ (Index xs c + 1 < 0) := by omega
      simp only [hi, hn, if_false, List.modifyHead]
      have e1 : (Index xs c + 1).toNat = (Index xs c).toNat + 1 := by omega
      have e2 : (Index xs c + 1 + 1).toNat = (Index xs c + 1).toNat + 1 := by omega
      simp [sliceTo, sliceFrom, e1, e2]

/-- The model of `strings.Split` agrees with the library function
`List.splitOn`. -/
theorem Split_eq_splitOn (s : GoString) (c : Char) : Split s c = s.splitOn c := by
  induction s with
  | nil => rfl
  | cons x xs ih =>
    unfold Split Count at ih ⊢
    rw [List.splitOn, List.splitOnP_cons]
    by_cases h : x = c
    · subst h
      have hI : Index (x :: xs) x = 0 := by simp [Index, index?]
      rw [List.count_cons_self, SplitN_succ_succ, hI]
      simp only [lt_self_iff_false, if_false, beq_self_eq_true, if_true]
      rw [← List.splitOn, ← ih]
      rfl
    · have hb : (x == c) = false := by simpa using h
      rw [List.count_cons_of_ne (Ne.symm h), SplitN_cons_ne x c xs _ h, ih, hb]
      simp [List.splitOn]

theorem Cut_colon_fst (s : GoString) :
    (Cut s ':').1 = s.takeWhile (fun ch => ch ≠ ':') ∧
      (Cut s ':').2.1 = (s.dropWhile (fun ch => ch ≠ ':')).tail := by
  rw [Cut_colon]
  by_cases hm : ':' ∈ s
  · simp [hm, headerName, headerValue]
  · have hall : ∀ ch ∈ s, (decide (ch ≠ ':')) = true := by
      intro ch hch
      simp only [ne_eq, decide_not, Bool.not_eq_eq_eq_not, Bool.not_true, decide_eq_false_iff_not]
      intro e
      exact hm (e ▸ hch)
    have h1 : s.takeWhile (fun ch => decide (ch ≠ ':')) = s := List.takeWhile_eq_self_iff.mpr hall
    have h2 : s.dropWhile (fun ch => decide (ch ≠ ':')) = [] := List.dropWhile_eq_nil_iff.mpr hall
    simp only [hm, if_false]
    rw [h1, h2]
    exact ⟨rfl, rfl⟩

/-- Claim C11: the empty platform string succeeds and leaves the receiver
(hence an unset `Platform`) as it is.  A non-empty string succeeds exactly
when the text before its first colon splits at the slashes into one to
three fields with a non-empty first field and, when there is a second
field, a non-empty second field.  On success OS is the first field,
Architecture the second field or the host architecture, Variant the third
field when present, OSVersion the text after the first colon; on failure
the receiver is unchanged. -/
theorem Platform_Parse_spec (GOARCH : GoString) (hArch : GOARCH ≠ []) (opts : OrasSdk.Platform) :
    (opts.platform = [] → opts.Parse GOARCH = (opts, none)) ∧
    (opts.platform ≠ [] →
      ((opts.Parse GOARCH).2 = none ↔
        (1 ≤ (platformFields opts.platform).length ∧
          (platformFields opts.platform).length ≤ 3 ∧
          (platformFields opts.platform).getD 0 [] ≠ [] ∧
          (2 ≤ (platformFields opts.platform).length →
            (platformFields opts.platform).getD 1 [] ≠ [])))) ∧
    (opts.platform ≠ [] → (opts.Parse GOARCH).2 = none →
      (opts.Parse GOARCH).1 = { opts with Platform := some (platformOf GOARCH opts.platform) }) ∧
    ((opts.Parse GOARCH).2 ≠ none → (opts.Parse GOARCH).1 = opts) := by
  by_cases h0 : opts.platform = []
  · simp [Platform.Parse, h0]
  · have hP : Split (Cut opts.platform ':').1 '/' = platformFields opts.platform := by
      rw [(Cut_colon_fst opts.platform).1]; rfl
    have hV : (Cut opts.platform ':').2.1 = platformOSVersion opts.platform :=
      (Cut_colon_fst opts.platform).2
    unfold Platform.Parse platformOf
    simp only [h0, if_false, hP, hV]
    generalize platformFields opts.platform = parts
    generalize parts.getD 0 [] = f0
    generalize parts.getD 1 [] = f1
    generalize parts.getD 2 [] = f2
    by_cases h3 : parts.length = 3
    · simp only [h3, if_true]
      by_cases hos : f0 = []
      · simp [hos]
      · by_cases har : f1 = []
        · simp [hos, har]
        · simp [hos, har]
    · by_cases h2 : parts.length = 2
      · simp only [h2, if_true]
        by_cases hos : f0 = []
        · simp [hos]
        · by_cases har : f1 = []
          · simp [hos, har]
          · simp [hos, har]
      · by_cases h1 : parts.length = 1
        · simp only [h1, if_true]
          by_cases hos : f0 = []
          · simp [hos]
          · simp [hos, hArch]
        · simp only [h3, h2, h1, if_false]
          simp
          omega

/-- The examples of claim C11 on a host of architecture `amd64`, through the
theorem: `linux/amd64`, `linux` (host architecture), and `/amd64`, which is
rejected and leaves the platform unset. -/
theorem Platform_Parse_spec_witness :
    Platform.Parse "amd64".toList ⟨"linux/amd64".toList, none⟩
      = (⟨"linux/amd64".toList,
          some ⟨"amd64".toList, "linux".toList, [], [], []⟩⟩, none) ∧
    (Platform.Parse "amd64".toList ⟨"linux".toList, none⟩).1.Platform
      = some ⟨"amd64".toList, "linux".toList, [], [], []⟩ ∧
    (Platform.Parse "amd64".toList ⟨"linux/arm/v7:10.0".toList, none⟩).1.Platform
      = some ⟨"arm".toList, "linux".toList, "10.0".toList, [], "v7".toList⟩ ∧
    (Platform.Parse "amd64".toList ⟨[], none⟩) = (⟨[], none⟩, none) ∧
    (Platform.Parse "amd64".toList ⟨"/amd64".toList, none⟩).2 ≠ none ∧
    (Platform.Parse "amd64".toList ⟨"/amd64".toList, none⟩).1 = ⟨"/amd64".toList, none⟩ :=
  ⟨rfl, rfl, rfl,
   (Platform_Parse_spec "amd64".toList (by decide) ⟨[], none⟩).1 rfl,
   fun h => absurd
     (((Platform_Parse_spec "amd64".toList (by decide) ⟨"/amd64".toList, none⟩).2.1
       (by decide)).mp h).2.2.1 (by decide),
   (Platform_Parse_spec "amd64".toList (by decide) ⟨"/amd64".toList, none⟩).2.2.2 (by decide)⟩

/-! ### Warning deduplication (C12) -/

theorem surfaced_append_one (ds : List Delivery) (d : Delivery) :
    surfaced (ds ++ [d]) = surfaced ds ++ (if d ∈ ds then [] else [d]) := by
  unfold surfaced
  rw [List.length_append, List.length_singleton, List.range_succ, List.filterMap_append]
  congr 1
  · apply List.filterMap_congr
    intro i hi
    have hlt : i < ds.length := List.mem_range.mp hi
    have h1 : (ds ++ [d]).get? i = ds.get? i := by
      simp [List.getElem?_append_left hlt]
    have h2 : (ds ++ [d]).take i = ds.take i := by
      rw [List.take_append_of_le_length (Nat.le_of_lt hlt)]
    rw [h1, h2]
  · have h1 : (ds ++ [d]).get? ds.length = some d := by simp
    have h2 : (ds ++ [d]).take ds.length = ds := by simp
    simp only [List.filterMap_cons, List.filterMap_nil, h1, h2]
    by_cases hm : d ∈ ds
    · simp [hm]
    · simp [hm]

theorem surfaced_nil : surfaced [] = [] := rfl

theorem surfaced_mem (ds : List Delivery) (d : Delivery) : d ∈ surfaced ds ↔ d ∈ ds := by
  induction ds using List.reverseRecOn with
  | nil => simp [surfaced_nil]
  | append_singleton l a ih =>
    rw [surfaced_append_one]
    by_cases hm : a ∈ l
    · simp only [hm, if_true, List.append_nil, ih, List.mem_append, List.mem_singleton]
      constructor
      · exact Or.inl
      · rintro (h | h)
        · exact h
        · exact h ▸ hm
    · simp [hm, ih]

theorem surfaced_nodup (ds : List Delivery) : (surfaced ds).Nodup := by
  induction ds using List.reverseRecOn with
  | nil => simp [surfaced_nil]
  | append_singleton l a ih =>
    rw [surfaced_append_one]
    by_cases hm : a ∈ l
    · simpa [hm] using ih
    · simp only [hm, if_false]
      rw [List.nodup_append]
      refine ⟨ih, List.nodup_singleton a, ?_⟩
      intro x hx hx2
      rw [List.mem_singleton] at hx2
      subst hx2
      exact hm ((surfaced_mem l x).mp hx)

theorem logOf_append (a b : List Delivery) : logOf (a ++ b) = logOf a ++ logOf b := by
  simp [logOf]

theorem lookup_cons_table (r k : GoString) (p : Nat) (table : List (GoString × Nat)) :
    List.lookup r ((k, p) :: table) = if r = k then some p else List.lookup r table := by
  rw [List.lookup_cons]
  by_cases h : r = k
  · simp [h]
  · have : (r == k) = false := by simpa using h
    simp [h, this]

theorem getD_set_self {α : Type} (l : List α) (i : Nat) (x d : α) (h : i < l.length) :
    (l.set i x).getD i d = x := by
  simp [List.getD_eq_getElem?_getD, List.getElem?_set, h]

theorem getD_set_other {α : Type} (l : List α) (i j : Nat) (x d : α) (h : i ≠ j) :
    (l.set i x).getD j d = l.getD j d := by
  simp [List.getD_eq_getElem?_getD, List.getElem?_set, h]

theorem getD_append_left {α : Type} (l m : List α) (i : Nat) (d : α) (h : i < l.length) :
    (l ++ m).getD i d = l.getD i d := by
  simp [List.getD_eq_getElem?_getD, List.getElem?_append_left h]

theorem getD_append_fresh {α : Type} (l : List α) (x d : α) :
    (l ++ [x]).getD l.length d = x := by
  simp [List.getD_eq_getElem?_getD]

theorem TableInv_obtain (t : Nat) (heap : WarnHeap) (handlers : List WarningHandler)
    (ds : List Delivery) (registry : GoString) (hinv : TableInv t heap handlers ds) :
    (Remote.handleWarning heap (some t) registry).2.1 = some t ∧
    (Remote.handleWarning heap (some t) registry).2.2.registry = registry ∧
    TableInv t (Remote.handleWarning heap (some t) registry).1
      (handlers ++ [(Remote.handleWarning heap (some t) registry).2.2]) ds := by
  obtain ⟨ht, hh, hsets, hinj, hds⟩ := hinv
  unfold Remote.handleWarning
  dsimp only
  cases hl : List.lookup registry (heap.tables.getD t []) with
  | some p =>
    refine ⟨rfl, rfl, ht, ?_, hsets, hinj, hds⟩
    intro h hm
    rcases List.mem_append.mp hm with hm | hm
    · exact hh h hm
    · rw [List.mem_singleton] at hm
      subst hm
      exact hl
  | none =>
    refine ⟨rfl, rfl, ?_⟩
    have hT : (heap.tables.set t ((registry, heap.sets.length) :: heap.tables.getD t [])).getD t []
        = (registry, heap.sets.length) :: heap.tables.getD t [] := getD_set_self _ _ _ _ ht
    unfold TableInv
    dsimp only
    rw [hT]
    refine ⟨by simpa using ht, ?_, ?_, ?_, ?_⟩
    · intro h hm
      rw [lookup_cons_table]
      rcases List.mem_append.mp hm with hm | hm
      · have hne : h.registry ≠ registry := by
          intro e
          have := hh h hm
          rw [e, hl] at this
          cases this
        simp only [hne, if_false]
        exact hh h hm
      · rw [List.mem_singleton] at hm
        subst hm
        simp
    · intro r p hr
      rw [lookup_cons_table] at hr
      by_cases e : r = registry
      · simp only [e, if_true, Option.some.injEq] at hr
        subst hr
        subst e
        refine ⟨by simp, fun v => ?_⟩
        rw [getD_append_fresh]
        constructor
        · intro hv; cases hv
        · intro hv
          obtain ⟨q, hq⟩ := hds (r, v) hv
          rw [hl] at hq
          cases hq
      · simp only [e, if_false] at hr
        obtain ⟨h1, h2⟩ := hsets r p hr
        refine ⟨by simp; omega, fun v => ?_⟩
        rw [getD_append_left _ _ _ _ h1]
        exact h2 v
    · intro r r2 p hr hr2
      rw [lookup_cons_table] at hr hr2
      by_cases e : r = registry
      · by_cases e2 : r2 = registry
        · rw [e, e2]
        · simp only [e, if_true, Option.some.injEq] at hr
          simp only [e2, if_false] at hr2
          have := (hsets r2 p hr2).1
          omega
      · by_cases e2 : r2 = registry
        · simp only [e2, if_true, Option.some.injEq] at hr2
          simp only [e, if_false] at hr
          have := (hsets r p hr).1
          omega
        · simp only [e, if_false] at hr
          simp only [e2, if_false] at hr2
          exact hinj r r2 p hr hr2
    · intro d hd
      rw [lookup_cons_table]
      by_cases e : d.1 = registry
      · exact ⟨heap.sets.length, by simp [e]⟩
      · simp only [e, if_false]
        exact hds d hd

theorem TableInv_call (t : Nat) (heap : WarnHeap) (handlers : List WarningHandler)
    (ds : List Delivery) (h : WarningHandler) (warning : remote.Warning)
    (hinv : TableInv t heap handlers ds) (hm : h ∈ handlers) :
    TableInv t (h.call heap warning).1 handlers (ds ++ [(h.registry, warning.toWarningValue)]) ∧
    (h.call heap warning).2.toList
      = logOf (if (h.registry, warning.toWarningValue) ∈ ds then []
          else [(h.registry, warning.toWarningValue)]) := by
  obtain ⟨ht, hh, hsets, hinj, hds⟩ := hinv
  have hlk := hh h hm
  obtain ⟨hp, hset⟩ := hsets h.registry h.warned hlk
  unfold WarningHandler.call
  dsimp only
  by_cases hv : warning.toWarningValue ∈ heap.sets.getD h.warned []
  · have hin : (h.registry, warning.toWarningValue) ∈ ds := (hset _).mp hv
    simp only [hv, if_true, hin]
    refine ⟨⟨ht, hh, ?_, hinj, ?_⟩, rfl⟩
    · intro r p hr
      obtain ⟨h1, h2⟩ := hsets r p hr
      refine ⟨h1, fun v => ?_⟩
      rw [h2 v, List.mem_append, List.mem_singleton]
      constructor
      · exact Or.inl
      · rintro (h3 | h3)
        · exact h3
        · rw [h3]; exact hin
    · intro d hd
      rcases List.mem_append.mp hd with hd | hd
      · exact hds d hd
      · rw [List.mem_singleton] at hd
        subst hd
        exact ⟨_, hlk⟩
  · have hin : (h.registry, warning.toWarningValue) ∉ ds := fun hc => hv ((hset _).mpr hc)
    simp only [hv, if_false, hin]
    refine ⟨⟨ht, hh, ?_, hinj, ?_⟩, rfl⟩
    · intro r p hr
      dsimp only at hr ⊢
      obtain ⟨h1, h2⟩ := hsets r p hr
      refine ⟨by simpa using h1, fun v => ?_⟩
      by_cases e : h.warned = p
      · subst e
        have er : r = h.registry := hinj r h.registry h.warned hr hlk
        subst er
        rw [getD_set_self _ _ _ _ h1]
        simp only [List.mem_append, List.mem_singleton, Prod.mk.injEq, true_and]
        rw [h2 v]
      · rw [getD_set_other _ _ _ _ _ e, h2 v, List.mem_append, List.mem_singleton]
        constructor
        · exact Or.inl
        · rintro (h3 | h3)
          · exact h3
          · simp only [Prod.mk.injEq] at h3
            exfalso
            apply e
            have := hr
            rw [h3.1, hlk] at this
            exact Option.some.inj this
    · intro d hd
      rcases List.mem_append.mp hd with hd | hd
      · exact hds d hd
      · rw [List.mem_singleton] at hd
        subst hd
        exact ⟨_, hlk⟩

theorem WarnInv_run (used : Side → Prop) (t : Nat) (events : List WarnEvent) :
    ∀ (s : WarnState) (ds : List Delivery), WarnInv used t s ds →
      (∀ side r, WarnEvent.obtain side r ∈ events → used side) →
      (s.run events).log
        = logOf (surfaced (ds ++ deliveriesFrom (s.handlers.map (fun h => h.registry)) events)) := by
  induction events with
  | nil =>
    intro s ds hinv _
    simp only [WarnState.run, List.foldl_nil, deliveriesFrom, List.append_nil]
    exact hinv.2.2.2
  | cons e es ih =>
    intro s ds hinv hused
    have hrest : ∀ side r, WarnEvent.obtain side r ∈ es → used side :=
      fun side r hm => hused side r (List.mem_cons_of_mem _ hm)
    obtain ⟨hf, hto, htab, hlog⟩ := hinv
    have hrun : s.run (e :: es) = (s.step e).run es := rfl
    rw [hrun]
    cases e with
    | obtain side registry =>
      have hu : used side := hused side registry (List.mem_cons_self _ _)
      cases side with
      | source =>
        have hw := hf hu
        obtain ⟨h1, h2, h3⟩ := TableInv_obtain t s.heap s.handlers ds registry htab
        have hinv2 : WarnInv used t (s.step (.obtain .source registry)) ds := by
          refine ⟨fun _ => ?_, hto, ?_, hlog⟩
          · simp only [WarnState.step, hw]
            exact h1
          · simp only [WarnState.step, hw]
            exact h3
        rw [ih _ ds hinv2 hrest]
        simp only [WarnState.step, hw, List.map_append, List.map_cons, List.map_nil, h2,
          deliveriesFrom]
      | destination =>
        have hw := hto hu
        obtain ⟨h1, h2, h3⟩ := TableInv_obtain t s.heap s.handlers ds registry htab
        have hinv2 : WarnInv used t (s.step (.obtain .destination registry)) ds := by
          refine ⟨hf, fun _ => ?_, ?_, hlog⟩
          · simp only [WarnState.step, hw]
            exact h1
          · simp only [WarnState.step, hw]
            exact h3
        rw [ih _ ds hinv2 hrest]
        simp only [WarnState.step, hw, List.map_append, List.map_cons, List.map_nil, h2,
          deliveriesFrom]
    | deliver i warning =>
      cases hget : s.handlers.get? i with
      | none =>
        have hstep : s.step (.deliver i warning) = s := by
          simp only [WarnState.step, hget]
        have hobt : (s.handlers.map (fun h => h.registry)).get? i = none := by
          simp [List.get?_eq_getElem?] at hget ⊢
          exact hget
        rw [hstep, ih s ds ⟨hf, hto, htab, hlog⟩ hrest]
        simp only [deliveriesFrom, hobt]
      | some h =>
        have hm : h ∈ s.handlers := List.get?_mem hget
        obtain ⟨h1, h2⟩ := TableInv_call t s.heap s.handlers ds h warning htab hm
        have hobt : (s.handlers.map (fun h => h.registry)).get? i = some h.registry := by
          rw [List.get?_eq_getElem?] at hget ⊢
          rw [List.getElem?_map, hget]
          rfl
        have hinv2 : WarnInv used t (s.step (.deliver i warning))
            (ds ++ [(h.registry, warning.toWarningValue)]) := by
          refine ⟨?_, ?_, ?_, ?_⟩
          · simpa only [WarnState.step, hget] using hf
          · simpa only [WarnState.step, hget] using hto
          · simpa only [WarnState.step, hget] using h1
          · simp only [WarnState.step, hget]
            rw [h2, hlog, surfaced_append_one, logOf_append]
        rw [ih _ _ hinv2 hrest]
        have hh : (s.step (.deliver i warning)).handlers = s.handlers := by
          simp only [WarnState.step, hget]
        rw [hh]
        simp only [deliveriesFrom, hobt, List.append_assoc, List.singleton_append]

theorem WarnInv_fresh (used : Side → Prop) (heap : WarnHeap) (w1 w2 : Option Nat)
    (h1 : used .source → w1 = some heap.tables.length)
    (h2 : used .destination → w2 = some heap.tables.length) :
    WarnInv used heap.tables.length
      ⟨{ heap with tables := heap.tables ++ [[]] }, w1, w2, [], []⟩ [] := by
  refine ⟨h1, h2, ⟨by simp, ?_, ?_, ?_, ?_⟩, rfl⟩
  · intro h hm; cases hm
  · intro r p hr
    simp [getD_append_fresh] at hr
  · intro r r2 p hr
    simp [getD_append_fresh] at hr
  · intro d hd; cases hd

theorem run_single_remote (heap : WarnHeap) (side : Side) (events : List WarnEvent)
    (hside : ∀ s r, WarnEvent.obtain s r ∈ events → s = side) :
    ((⟨heap, none, none, [], []⟩ : WarnState).run events).log
      = logOf (surfaced (deliveriesFrom [] events)) := by
  induction events with
  | nil => rfl
  | cons e es ih =>
    cases e with
    | deliver i warning =>
      have hrest : ∀ s r, WarnEvent.obtain s r ∈ es → s = side :=
        fun s r hm => hside s r (List.mem_cons_of_mem _ hm)
      have := ih hrest
      simpa [WarnState.run, WarnState.step, deliveriesFrom] using this
    | obtain s registry =>
      have hs : s = side := hside s registry (List.mem_cons_self _ _)
      subst hs
      cases s with
      | source =>
        have hinv := WarnInv_fresh (fun x => x = Side.source) heap
          (some heap.tables.length) none (fun _ => rfl) (fun h => by cases h)
        have := WarnInv_run _ _ (.obtain .source registry :: es) _ _ hinv
          (fun s r hm => hside s r hm)
        simpa using this
      | destination =>
        have hinv := WarnInv_fresh (fun x => x = Side.destination) heap
          none (some heap.tables.length) (fun h => by cases h) (fun _ => rfl)
        have := WarnInv_run _ _ (.obtain .destination registry :: es) _ _ hinv
          (fun s r hm => hside s r hm)
        simpa using this

/-- Claim C12: for every sequence of handler requests and warning
deliveries, on the two sides of a `BinaryTarget` after `Parse` or on one
Remote alone, the records passed to the logger are exactly the deliveries
with no earlier delivery of the same registry and the same value, in order.
Hence the surfaced deliveries hold no pair of registry and value twice, and
hold every pair that was delivered. -/
theorem handleWarning_surfaces_first (heap : WarnHeap) (w1 w2 : Option Nat)
    (events : List WarnEvent) :
    ((BinaryTarget.ParseWarned ⟨heap, w1, w2, [], []⟩).run events).log
      = logOf (surfaced (deliveries events)) ∧
    (∀ side, (∀ s r, WarnEvent.obtain s r ∈ events → s = side) →
      ((⟨heap, none, none, [], []⟩ : WarnState).run events).log
        = logOf (surfaced (deliveries events))) ∧
    (surfaced (deliveries events)).Nodup ∧
    (∀ d, d ∈ surfaced (deliveries events) ↔ d ∈ deliveries events) := by
  refine ⟨?_, fun side hside => run_single_remote heap side events hside,
    surfaced_nodup _, surfaced_mem _⟩
  have hinv := WarnInv_fresh (fun _ => True) heap (some heap.tables.length)
    (some heap.tables.length) (fun _ => rfl) (fun _ => rfl)
  have := WarnInv_run _ _ events _ _ hinv (fun _ _ _ => trivial)
  simpa [BinaryTarget.ParseWarned, deliveries] using this

/-- Claim C12 on concrete runs, through the theorem.  On one Remote: a
value delivered twice for a registry is logged once, a second value for
the same registry is logged too, and the first value is logged again for
another registry.  On the two sides of a `BinaryTarget`: a value delivered
through the source's handler and then through the destination's handler
for the same registry is logged once. -/
theorem handleWarning_surfaces_first_witness :
    ((⟨⟨[], []⟩, none, none, [], []⟩ : WarnState).run
        [.obtain .source "reg.io".toList, .obtain .source "other.io".toList,
         .deliver 0 ⟨⟨299, [], "deprecated".toList⟩⟩,
         .deliver 0 ⟨⟨299, [], "deprecated".toList⟩⟩,
         .deliver 0 ⟨⟨299, [], "slow".toList⟩⟩,
         .deliver 1 ⟨⟨299, [], "deprecated".toList⟩⟩]).log
      = [("reg.io".toList, "deprecated".toList), ("reg.io".toList, "slow".toList),
         ("other.io".toList, "deprecated".toList)] ∧
    ((BinaryTarget.ParseWarned ⟨⟨[], []⟩, none, none, [], []⟩).run
        [.obtain .source "reg.io".toList, .obtain .destination "reg.io".toList,
         .deliver 0 ⟨⟨299, [], "deprecated".toList⟩⟩,
         .deliver 1 ⟨⟨299, [], "deprecated".toList⟩⟩]).log
      = [("reg.io".toList, "deprecated".toList)] :=
  ⟨((handleWarning_surfaces_first ⟨[], []⟩ none none
      [.obtain .source "reg.io".toList, .obtain .source "other.io".toList,
       .deliver 0 ⟨⟨299, [], "deprecated".toList⟩⟩,
       .deliver 0 ⟨⟨299, [], "deprecated".toList⟩⟩,
       .deliver 0 ⟨⟨299, [], "slow".toList⟩⟩,
       .deliver 1 ⟨⟨299, [], "deprecated".toList⟩⟩]).2.1 .source (by
        intro s r hm
        simp at hm
        rcases hm with h | h
        · exact h.1
        · exact h.1)).trans rfl,
   ((handleWarning_surfaces_first ⟨[], []⟩ none none
      [.obtain .source "reg.io".toList, .obtain .destination "reg.io".toList,
       .deliver 0 ⟨⟨299, [], "deprecated".toList⟩⟩,
       .deliver 1 ⟨⟨299, [], "deprecated".toList⟩⟩]).1).trans rfl⟩

/-! ### Concurrent deliveries (C13) -/

/-- The closure of `handleWarning` run in one piece is its two steps, one
after the other. -/
theorem call_eq_loadOrStore (h : WarningHandler) (heap : WarnHeap) (warning : remote.Warning) :
    h.call heap warning
      = ((h.loadOrStore heap warning.toWarningValue).1,
          if (h.loadOrStore heap warning.toWarningValue).2 then none
          else some (h.registry, warning.Text)) := by
  unfold WarningHandler.call WarningHandler.loadOrStore
  dsimp only
  by_cases hv : warning.toWarningValue ∈ heap.sets.getD h.warned []
  · simp only [hv, if_true]
  · simp only [hv, if_false]
    rfl

theorem loadOrStore_loaded (h : WarningHandler) (heap : WarnHeap) (v : remote.WarningValue)
    (hv : v ∈ heap.sets.getD h.warned []) : h.loadOrStore heap v = (heap, true) := by
  unfold WarningHandler.loadOrStore
  simp only [hv, if_true]

theorem loadOrStore_stored (h : WarningHandler) (heap : WarnHeap) (v : remote.WarningValue)
    (hp : h.warned < heap.sets.length) (hv : v ∉ heap.sets.getD h.warned []) :
    (h.loadOrStore heap v).2 = false ∧
    (h.loadOrStore heap v).1.sets.length = heap.sets.length ∧
    (h.loadOrStore heap v).1.sets.getD h.warned [] = heap.sets.getD h.warned [] ++ [v] := by
  have e : h.loadOrStore heap v
      = ({ heap with sets := heap.sets.set h.warned (heap.sets.getD h.warned [] ++ [v]) },
          false) := by
    unfold WarningHandler.loadOrStore
    simp only [hv, if_false]
  rw [e]
  exact ⟨rfl, by simp, getD_set_self _ _ _ _ hp⟩

theorem step_leave (s : ConcState) (i : Nat) (x : remote.Warning) (loaded : Bool)
    (h : (s.workers i).pending = some (x, loaded)) :
    s.step i = ⟨s.heap, Function.update s.workers i { s.workers i with pending := none },
      s.log ++ (if loaded then [] else [((s.workers i).handler.registry, x)])⟩ := by
  unfold ConcState.step Worker.step
  rw [h]
  cases loaded <;> rfl

theorem step_idle (s : ConcState) (i : Nat) (h : (s.workers i).pending = none)
    (ht : (s.workers i).todo = []) : s.step i = s := by
  unfold ConcState.step Worker.step
  rw [h, ht]
  simp only [Option.toList_none, List.append_nil, Function.update_eq_self]

theorem step_enter (s : ConcState) (i : Nat) (x : remote.Warning) (rest : List remote.Warning)
    (h : (s.workers i).pending = none) (ht : (s.workers i).todo = x :: rest) :
    s.step i = ⟨((s.workers i).handler.loadOrStore s.heap x.toWarningValue).1,
      Function.update s.workers i
        { s.workers i with
          todo := rest
          pending := some (x, ((s.workers i).handler.loadOrStore s.heap x.toWarningValue).2) },
      s.log⟩ := by
  unfold ConcState.step Worker.step
  rw [h, ht]
  simp only [Option.toList_none, List.append_nil]

theorem surfacedValues_append (log : List (GoString × remote.Warning))
    (e : GoString × remote.Warning) :
    surfacedValues (log ++ [e]) = surfacedValues log ++ [e.2.toWarningValue] := by
  simp [surfacedValues]

theorem ConcInv_step (p : Nat) (before : List remote.WarningValue)
    (delivered : remote.WarningValue → Prop) (s : ConcState) (i : Nat)
    (hinv : ConcInv p before delivered s) : ConcInv p before delivered (s.step i) := by
  obtain ⟨c1, c2, c3, c4, c5, c6, c7, c8, c9, c10⟩ := hinv
  cases hpend : (s.workers i).pending with
  | some pr =>
    obtain ⟨x, loaded⟩ := pr
    have hupd : ∀ j, (Function.update s.workers i { s.workers i with pending := none } j).handler
        = (s.workers j).handler ∧
        (Function.update s.workers i { s.workers i with pending := none } j).todo
        = (s.workers j).todo ∧
        ((Function.update s.workers i { s.workers i with pending := none } j).pending
          = if j = i then none else (s.workers j).pending) := by
      intro j
      by_cases hj : j = i
      · subst hj; simp
      · simp [Function.update_noteq hj, hj]
    rw [step_leave s i x loaded hpend]
    unfold ConcInv
    dsimp only
    cases loaded with
    | true =>
      simp only [if_true, List.append_nil]
      refine ⟨c1, fun j => by rw [(hupd j).1]; exact c2 j, c3, ?_, ?_, c6, ?_, ?_, c9, ?_⟩
      · intro j k a b hj hk
        rw [(hupd j).2.2] at hj
        rw [(hupd k).2.2] at hk
        by_cases ej : j = i
        · simp [ej] at hj
        · by_cases ek : k = i
          · simp [ek] at hk
          · simp only [ej, ek, if_false] at hj hk
            exact c4 j k a b hj hk
      · intro j a hj
        rw [(hupd j).2.2] at hj
        by_cases ej : j = i
        · simp [ej] at hj
        · simp only [ej, if_false] at hj
          exact c5 j a hj
      · intro j a hj
        rw [(hupd j).2.2] at hj
        by_cases ej : j = i
        · simp [ej] at hj
        · simp only [ej, if_false] at hj
          exact c7 j a hj
      · intro v hv hb
        rcases c8 v hv hb with h | ⟨j, a, hj, ha⟩
        · exact Or.inl h
        · refine Or.inr ⟨j, a, ?_, ha⟩
          rw [(hupd j).2.2]
          have ej : j ≠ i := by
            intro e
            rw [e, hpend] at hj
            simp at hj
          simp only [ej, if_false]
          exact hj
      · intro v
        rw [← c10 v]
        constructor
        · rintro (h | ⟨j, a, hj, ha⟩)
          · exact Or.inl h
          · rw [(hupd j).2.1] at hj
            exact Or.inr ⟨j, a, hj, ha⟩
        · rintro (h | ⟨j, a, hj, ha⟩)
          · exact Or.inl h
          · refine Or.inr ⟨j, a, ?_, ha⟩
            rw [(hupd j).2.1]
            exact hj
    | false =>
      simp only [Bool.false_eq_true, if_false]
      rw [surfacedValues_append]
      dsimp only
      have hnew := c5 i x hpend
      have hst := c7 i x hpend
      refine ⟨c1, fun j => by rw [(hupd j).1]; exact c2 j, ?_, ?_, ?_, ?_, ?_, ?_, c9, ?_⟩
      · rw [List.nodup_append]
        refine ⟨c3, List.nodup_singleton _, ?_⟩
        intro a ha hb
        rw [List.mem_singleton] at hb
        subst hb
        exact hnew ha
      · intro j k a b hj hk
        rw [(hupd j).2.2] at hj
        rw [(hupd k).2.2] at hk
        by_cases ej : j = i
        · simp [ej] at hj
        · by_cases ek : k = i
          · simp [ek] at hk
          · simp only [ej, ek, if_false] at hj hk
            exact c4 j k a b hj hk
      · intro j a hj
        rw [(hupd j).2.2] at hj
        by_cases ej : j = i
        · simp [ej] at hj
        · simp only [ej, if_false] at hj
          rw [List.mem_append, List.mem_singleton]
          rintro (h | h)
          · exact c5 j a hj h
          · exact ej (c4 j i a x hj hpend h)
      · intro v hv
        rcases List.mem_append.mp hv with h | h
        · exact c6 v h
        · rw [List.mem_singleton] at h
          subst h
          exact hst
      · intro j a hj
        rw [(hupd j).2.2] at hj
        by_cases ej : j = i
        · simp [ej] at hj
        · simp only [ej, if_false] at hj
          exact c7 j a hj
      · intro v hv hb
        rcases c8 v hv hb with h | ⟨j, a, hj, ha⟩
        · exact Or.inl (List.mem_append_left _ h)
        · by_cases ej : j = i
          · left
            rw [ej, hpend] at hj
            simp only [Option.some.injEq, Prod.mk.injEq, and_true] at hj
            subst hj
            rw [← ha]
            simp
          · refine Or.inr ⟨j, a, ?_, ha⟩
            rw [(hupd j).2.2]
            simp only [ej, if_false]
            exact hj
      · intro v
        rw [← c10 v]
        constructor
        · rintro (h | ⟨j, a, hj, ha⟩)
          · exact Or.inl h
          · rw [(hupd j).2.1] at hj
            exact Or.inr ⟨j, a, hj, ha⟩
        · rintro (h | ⟨j, a, hj, ha⟩)
          · exact Or.inl h
          · refine Or.inr ⟨j, a, ?_, ha⟩
            rw [(hupd j).2.1]
            exact hj
  | none =>
    cases htodo : (s.workers i).todo with
    | nil =>
      rw [step_idle s i hpend htodo]
      exact ⟨c1, c2, c3, c4, c5, c6, c7, c8, c9, c10⟩
    | cons x rest =>
      rw [step_enter s i x rest hpend htodo]
      unfold ConcInv
      dsimp only
      have hwi : (s.workers i).handler.warned = p := c2 i
      by_cases hv : x.toWarningValue ∈ s.heap.sets.getD p []
      · have hl := loadOrStore_loaded (s.workers i).handler s.heap x.toWarningValue
          (by rw [hwi]; exact hv)
        rw [hl]
        dsimp only
        have hupd : ∀ j,
            (Function.update s.workers i
              { s.workers i with todo := rest, pending := some (x, true) } j).handler
              = (s.workers j).handler ∧
            ((Function.update s.workers i
              { s.workers i with todo := rest, pending := some (x, true) } j).todo
              = if j = i then rest else (s.workers j).todo) ∧
            ((Function.update s.workers i
              { s.workers i with todo := rest, pending := some (x, true) } j).pending
              = if j = i then some (x, true) else (s.workers j).pending) := by
          intro j
          by_cases hj : j = i
          · subst hj; simp
          · simp [Function.update_noteq hj, hj]
        refine ⟨c1, fun j => by rw [(hupd j).1]; exact c2 j, c3, ?_, ?_, c6, ?_, ?_, c9, ?_⟩
        · intro j k a b hj hk
          rw [(hupd j).2.2] at hj
          rw [(hupd k).2.2] at hk
          by_cases ej : j = i
          · simp [ej] at hj
          · by_cases ek : k = i
            · simp [ek] at hk
            · simp only [ej, ek, if_false] at hj hk
              exact c4 j k a b hj hk
        · intro j a hj
          rw [(hupd j).2.2] at hj
          by_cases ej : j = i
          · simp [ej] at hj
          · simp only [ej, if_false] at hj
            exact c5 j a hj
        · intro j a hj
          rw [(hupd j).2.2] at hj
          by_cases ej : j = i
          · simp [ej] at hj
          · simp only [ej, if_false] at hj
            exact c7 j a hj
        · intro v hv2 hb
          rcases c8 v hv2 hb with h | ⟨j, a, hj, ha⟩
          · exact Or.inl h
          · refine Or.inr ⟨j, a, ?_, ha⟩
            rw [(hupd j).2.2]
            have ej : j ≠ i := by
              intro e
              rw [e, hpend] at hj
              simp at hj
            simp only [ej, if_false]
            exact hj
        · intro v
          rw [← c10 v]
          constructor
          · rintro (h | ⟨j, a, hj, ha⟩)
            · exact Or.inl h
            · rw [(hupd j).2.1] at hj
              by_cases ej : j = i
              · simp only [ej, if_true] at hj
                refine Or.inr ⟨i, a, ?_, ha⟩
                rw [htodo]
                exact List.mem_cons_of_mem _ hj
              · simp only [ej, if_false] at hj
                exact Or.inr ⟨j, a, hj, ha⟩
          · rintro (h | ⟨j, a, hj, ha⟩)
            · exact Or.inl h
            · by_cases ej : j = i
              · rw [ej, htodo] at hj
                rcases List.mem_cons.mp hj with e | e
                · left
                  rw [← ha, e]
                  exact hv
                · refine Or.inr ⟨i, a, ?_, ha⟩
                  rw [(hupd i).2.1]
                  simpa using e
              · refine Or.inr ⟨j, a, ?_, ha⟩
                rw [(hupd j).2.1]
                simp only [ej, if_false]
                exact hj
      · have hp2 : (s.workers i).handler.warned < s.heap.sets.length := by rw [hwi]; exact c1
        obtain ⟨hl1, hl2, hl3⟩ := loadOrStore_stored (s.workers i).handler s.heap
          x.toWarningValue hp2 (by rw [hwi]; exact hv)
        rw [hwi] at hl3
        rw [hl1, hl3]
        have hupd : ∀ j,
            (Function.update s.workers i
              { s.workers i with todo := rest, pending := some (x, false) } j).handler
              = (s.workers j).handler ∧
            ((Function.update s.workers i
              { s.workers i with todo := rest, pending := some (x, false) } j).todo
              = if j = i then rest else (s.workers j).todo) ∧
            ((Function.update s.workers i
              { s.workers i with todo := rest, pending := some (x, false) } j).pending
              = if j = i then some (x, false) else (s.workers j).pending) := by
          intro j
          by_cases hj : j = i
          · subst hj; simp
          · simp [Function.update_noteq hj, hj]
        have hxb : x.toWarningValue ∉ before := fun hb => hv (c9 _ hb)
        refine ⟨by rw [hl2]; exact c1, fun j => by rw [(hupd j).1]; exact c2 j, c3,
          ?_, ?_, ?_, ?_, ?_, ?_, ?_⟩
        · intro j k a b hj hk hab
          rw [(hupd j).2.2] at hj
          rw [(hupd k).2.2] at hk
          by_cases ej : j = i
          · by_cases ek : k = i
            · rw [ej, ek]
            · simp only [ej, if_true, Option.some.injEq, Prod.mk.injEq, and_true] at hj
              simp only [ek, if_false] at hk
              subst hj
              exact absurd (hab ▸ (c7 k b hk).1) hv
          · by_cases ek : k = i
            · simp only [ek, if_true, Option.some.injEq, Prod.mk.injEq, and_true] at hk
              simp only [ej, if_false] at hj
              subst hk
              exact absurd (hab ▸ (c7 j a hj).1) hv
            · simp only [ej, ek, if_false] at hj hk
              exact c4 j k a b hj hk hab
        · intro j a hj
          rw [(hupd j).2.2] at hj
          by_cases ej : j = i
          · simp only [ej, if_true, Option.some.injEq, Prod.mk.injEq, and_true] at hj
            subst hj
            exact fun hm => hv (c6 _ hm).1
          · simp only [ej, if_false] at hj
            exact c5 j a hj
        · intro v hm
          exact ⟨List.mem_append_left _ (c6 v hm).1, (c6 v hm).2⟩
        · intro j a hj
          rw [(hupd j).2.2] at hj
          by_cases ej : j = i
          · simp only [ej, if_true, Option.some.injEq, Prod.mk.injEq, and_true] at hj
            subst hj
            exact ⟨by simp, hxb⟩
          · simp only [ej, if_false] at hj
            exact ⟨List.mem_append_left _ (c7 j a hj).1, (c7 j a hj).2⟩
        · intro v hm hb
          rcases List.mem_append.mp hm with h | h
          · rcases c8 v h hb with h2 | ⟨j, a, hj, ha⟩
            · exact Or.inl h2
            · refine Or.inr ⟨j, a, ?_, ha⟩
              rw [(hupd j).2.2]
              have ej : j ≠ i := by
                intro e
                rw [e, hpend] at hj
                simp at hj
              simp only [ej, if_false]
              exact hj
          · rw [List.mem_singleton] at h
            refine Or.inr ⟨i, x, ?_, h.symm⟩
            rw [(hupd i).2.2]
            simp
        · intro v hb
          exact List.mem_append_left _ (c9 v hb)
        · intro v
          rw [← c10 v]
          constructor
          · rintro (h | ⟨j, a, hj, ha⟩)
            · rcases List.mem_append.mp h with h | h
              · exact Or.inl h
              · rw [List.mem_singleton] at h
                refine Or.inr ⟨i, x, ?_, h.symm⟩
                rw [htodo]
                exact List.mem_cons_self _ _
            · rw [(hupd j).2.1] at hj
              by_cases ej : j = i
              · simp only [ej, if_true] at hj
                refine Or.inr ⟨i, a, ?_, ha⟩
                rw [htodo]
                exact List.mem_cons_of_mem _ hj
              · simp only [ej, if_false] at hj
                exact Or.inr ⟨j, a, hj, ha⟩
          · rintro (h | ⟨j, a, hj, ha⟩)
            · exact Or.inl (List.mem_append_left _ h)
            · by_cases ej : j = i
              · rw [ej, htodo] at hj
                rcases List.mem_cons.mp hj with e | e
                · left
                  rw [← ha, e]
                  simp
                · refine Or.inr ⟨i, a, ?_, ha⟩
                  rw [(hupd i).2.1]
                  simpa using e
              · refine Or.inr ⟨j, a, ?_, ha⟩
                rw [(hupd j).2.1]
                simp only [ej, if_false]
                exact hj

theorem ConcInv_run (p : Nat) (before : List remote.WarningValue)
    (delivered : remote.WarningValue → Prop) (schedule : List Nat) :
    ∀ s : ConcState, ConcInv p before delivered s → ConcInv p before delivered (s.run schedule) := by
  induction schedule with
  | nil => exact fun s h => h
  | cons i rest ih => exact fun s h => ih (s.step i) (ConcInv_step p before delivered s i h)

theorem ConcInv_start (heap : WarnHeap) (p : Nat) (workers : Nat → Worker)
    (hp : p < heap.sets.length)
    (hw : ∀ i, (workers i).handler.warned = p ∧ (workers i).pending = none) :
    ConcInv p (heap.sets.getD p [])
      (fun v => ∃ i, ∃ x ∈ (workers i).todo, x.toWarningValue = v) ⟨heap, workers, []⟩ := by
  refine ⟨hp, fun i => (hw i).1, List.nodup_nil, ?_, ?_, ?_, ?_, ?_, fun v h => h, fun v => Iff.rfl⟩
  · intro i j x y hi
    rw [(hw i).2] at hi
    cases hi
  · intro i x hi
    rw [(hw i).2] at hi
    cases hi
  · intro v hv
    cases hv
  · intro i x hi
    rw [(hw i).2] at hi
    cases hi
  · intro v hv hb
    exact absurd hv hb

theorem stepsLeft_step (s : ConcState) (i j : Nat) :
    ((s.step i).workers j).stepsLeft
      = if j = i then (s.workers j).stepsLeft - 1 else (s.workers j).stepsLeft := by
  by_cases hj : j = i
  · subst hj
    simp only [if_true]
    cases hpend : (s.workers j).pending with
    | some pr =>
      obtain ⟨x, loaded⟩ := pr
      rw [step_leave s j x loaded hpend]
      simp [Worker.stepsLeft, hpend]
    | none =>
      cases htodo : (s.workers j).todo with
      | nil =>
        rw [step_idle s j hpend htodo]
        simp [Worker.stepsLeft, hpend, htodo]
      | cons x rest =>
        rw [step_enter s j x rest hpend htodo]
        simp [Worker.stepsLeft, hpend, htodo]
        omega
  · simp only [hj, if_false]
    unfold ConcState.step
    simp [Function.update_noteq hj]

theorem stepsLeft_run (schedule : List Nat) (j : Nat) :
    ∀ s : ConcState,
      ((s.run schedule).workers j).stepsLeft = (s.workers j).stepsLeft - schedule.count j := by
  induction schedule with
  | nil => intro s; simp [ConcState.run]
  | cons i rest ih =>
    intro s
    have hrun : s.run (i :: rest) = (s.step i).run rest := rfl
    rw [hrun, ih (s.step i), stepsLeft_step]
    by_cases hj : j = i
    · subst hj
      simp only [if_true, List.count_cons_self]
      omega
    · have hc : List.count j (i :: rest) = List.count j rest := by
        rw [List.count_cons]
        have : (i == j) = false := by simpa using fun e : i = j => hj e.symm
        simp [this]
      simp only [hj, if_false, hc]

theorem stepsLeft_eq_zero (w : Worker) (h : w.stepsLeft = 0) :
    w.todo = [] ∧ w.pending = none := by
  unfold Worker.stepsLeft at h
  constructor
  · have : w.todo.length = 0 := by omega
    exact List.eq_nil_of_length_eq_zero this
  · cases hp : w.pending with
    | none => rfl
    | some x => simp [hp] at h

/-- Claim C13: several workers deliver warnings to the handlers of one
registry (they hold the same set `p`), each delivery being the atomic
`LoadOrStore` step followed by the log step, under an arbitrary schedule.
At every moment no value has been surfaced twice, nothing stored in the set
has been lost, and every surfaced value is in the set and was not there
before.  Once the schedule has let every worker take all its steps, every
worker is done, the set holds exactly what it held before and what the
workers delivered, and every delivered value that was not in the set
before has been surfaced exactly once. -/
theorem concurrent_deliveries_surface_once (heap : WarnHeap) (p : Nat)
    (workers : Nat → Worker) (schedule : List Nat) (hp : p < heap.sets.length)
    (hw : ∀ i, (workers i).handler.warned = p ∧ (workers i).pending = none) :
    (surfacedValues ((⟨heap, workers, []⟩ : ConcState).run schedule).log).Nodup ∧
    (∀ v ∈ heap.sets.getD p [],
      v ∈ ((⟨heap, workers, []⟩ : ConcState).run schedule).heap.sets.getD p []) ∧
    (∀ v ∈ surfacedValues ((⟨heap, workers, []⟩ : ConcState).run schedule).log,
      v ∈ ((⟨heap, workers, []⟩ : ConcState).run schedule).heap.sets.getD p [] ∧
      v ∉ heap.sets.getD p [] ∧ ∃ i, ∃ x ∈ (workers i).todo, x.toWarningValue = v) ∧
    ((∀ i, 2 * (workers i).todo.length ≤ schedule.count i) →
      (∀ i, (((⟨heap, workers, []⟩ : ConcState).run schedule).workers i).todo = [] ∧
        (((⟨heap, workers, []⟩ : ConcState).run schedule).workers i).pending = none) ∧
      (∀ v, v ∈ ((⟨heap, workers, []⟩ : ConcState).run schedule).heap.sets.getD p [] ↔
        (v ∈ heap.sets.getD p [] ∨ ∃ i, ∃ x ∈ (workers i).todo, x.toWarningValue = v)) ∧
      (∀ i, ∀ x ∈ (workers i).todo, x.toWarningValue ∉ heap.sets.getD p [] →
        (surfacedValues ((⟨heap, workers, []⟩ : ConcState).run schedule).log).count
          x.toWarningValue = 1)) := by
  have hinv := ConcInv_run p _ _ schedule _ (ConcInv_start heap p workers hp hw)
  obtain ⟨c1, c2, c3, c4, c5, c6, c7, c8, c9, c10⟩ := hinv
  refine ⟨c3, c9, ?_, ?_⟩
  · intro v hv
    obtain ⟨h1, h2⟩ := c6 v hv
    refine ⟨h1, h2, ?_⟩
    rcases (c10 v).mp (Or.inl h1) with h | h
    · exact absurd h h2
    · exact h
  · intro hfair
    have hdone : ∀ i, (((⟨heap, workers, []⟩ : ConcState).run schedule).workers i).todo = [] ∧
        (((⟨heap, workers, []⟩ : ConcState).run schedule).workers i).pending = none := by
      intro i
      apply stepsLeft_eq_zero
      rw [stepsLeft_run]
      have := hfair i
      simp only [Worker.stepsLeft, (hw i).2, Option.isSome_none, Bool.false_eq_true, if_false]
      omega
    have hset : ∀ v, v ∈ ((⟨heap, workers, []⟩ : ConcState).run schedule).heap.sets.getD p [] ↔
        (v ∈ heap.sets.getD p [] ∨ ∃ i, ∃ x ∈ (workers i).todo, x.toWarningValue = v) := by
      intro v
      rw [← c10 v]
      constructor
      · exact Or.inl
      · rintro (h | ⟨i, x, hx, _⟩)
        · exact h
        · rw [(hdone i).1] at hx
          cases hx
    refine ⟨hdone, hset, ?_⟩
    intro i x hx hb
    have hin : x.toWarningValue ∈
        ((⟨heap, workers, []⟩ : ConcState).run schedule).heap.sets.getD p [] :=
      (hset _).mpr (Or.inr ⟨i, x, hx, rfl⟩)
    rcases c8 _ hin hb with h | ⟨j, y, hj, _⟩
    · exact List.count_eq_one_of_mem c3 h
    · rw [(hdone j).2] at hj
      cases hj

/-- Claim C13 on a concrete interleaving, through the theorem: two workers
deliver the same warning and both run `LoadOrStore` before either reaches
its log step; the warning is stored once and surfaced exactly once, by the
worker whose `LoadOrStore` came first. -/
theorem concurrent_deliveries_surface_once_witness :
    ((⟨⟨[], [[]]⟩, twoWorkers, []⟩ : ConcState).run [0, 1, 0, 1]).log
      = [("reg.io".toList, ⟨⟨299, [], "deprecated".toList⟩⟩)] ∧
    ((⟨⟨[], [[]]⟩, twoWorkers, []⟩ : ConcState).run [1, 0, 0, 1]).log
      = [("reg.io".toList, ⟨⟨299, [], "deprecated".toList⟩⟩)] ∧
    ((⟨⟨[], [[]]⟩, twoWorkers, []⟩ : ConcState).run [0, 1, 0, 1]).heap.sets
      = [[⟨299, [], "deprecated".toList⟩]] ∧
    (surfacedValues ((⟨⟨[], [[]]⟩, twoWorkers, []⟩ : ConcState).run [0, 1, 0, 1]).log).count
      ⟨299, [], "deprecated".toList⟩ = 1 :=
  ⟨rfl, rfl, rfl,
    ((concurrent_deliveries_surface_once ⟨[], [[]]⟩ 0 twoWorkers [0, 1, 0, 1] (by decide)
      (fun i => by unfold twoWorkers; split <;> exact ⟨rfl, rfl⟩)).2.2.2
      (fun i => by
        unfold twoWorkers
        by_cases h : i < 2
        · interval_cases i <;> simp
        · simp [h])).2.2 0 ⟨⟨299, [], "deprecated".toList⟩⟩
      (by simp [twoWorkers]) (by simp)⟩

end OrasSdk
